import Mathlib

/-!
Verification development for a Teeko game AI (`game.py`, class `TeekoPlayer`).

The board is a 5×5 grid of cells, each `' '`, `'b'` or `'r'` in the source;
here a cell is the inductive type `Cell` and a board is a total function
`Fin 5 → Fin 5 → Cell`.  All arithmetic on scores uses `ℚ` (the Python source
uses floats whose literals and comparisons are modelled exactly by rationals),
and the search value lattice `float('-inf') … float('inf')` is modelled by
`WithBot (WithTop ℚ)`.

Definitions are direct translations of the corresponding Python methods:
loops with early `return` become scans/folds, in-place writes on deep copies
become functional updates.  A separate explicit-heap model (`Heap`, `succH`)
captures the reference/aliasing structure of the successor generator for the
frame-condition claims.
-/

inductive Cell where
  | empty : Cell
  | black : Cell
  | red : Cell
deriving DecidableEq, Repr, Fintype

/-- A 5×5 Teeko board: the value of each grid cell. -/
def Board := Fin 5 → Fin 5 → Cell

instance : DecidableEq Board := by
  unfold Board
  infer_instance

/-- Read a cell by natural-number coordinates; out-of-range reads (which the
translated code never performs) default to an empty cell. -/
def cell (s : Board) (i j : Nat) : Cell :=
  if h : i < 5 ∧ j < 5 then s ⟨i, h.1⟩ ⟨j, h.2⟩ else Cell.empty

/-- Functional update of one board cell, by natural-number coordinates. -/
def setCell (s : Board) (i j : Nat) (v : Cell) : Board :=
  fun a b => if a.val = i ∧ b.val = j then v else s a b

/-- `opponent_piece = 'r' if my_piece == 'b' else 'b'` (game.py, several places). -/
def oppOf (p : Cell) : Cell :=
  if p = Cell.black then Cell.red else Cell.black

/-- The 25 grid coordinates in row-major order, as produced by the nested
`for i in range(5): for j in range(5)` loops. -/
def cells25 : List (Nat × Nat) :=
  (List.range 5).flatMap (fun i => (List.range 5).map (fun j => (i, j)))

/-- `total_pieces = sum(1 for row in state for cell in row if cell != ' ')`. -/
def countPieces (s : Board) : Nat :=
  (cells25.filter (fun c => decide (cell s c.1 c.2 ≠ Cell.empty))).length

/-- The eight move offsets of `TeekoPlayer.succ`, in source order. -/
def directions : List (Int × Int) :=
  [(-1, -1), (-1, 0), (-1, 1), (0, -1), (0, 1), (1, -1), (1, 0), (1, 1)]

/-- `TeekoPlayer.succ` (game.py lines 101–148): drop phase adds `my_piece` at
every empty cell in row-major order; move phase relocates each `my_piece`
one step in any of the 8 directions to an in-bounds empty cell.  Each Python
`copy.deepcopy` followed by in-place writes becomes a functional update
(first the destination is set, then the source is cleared). -/
def succ (s : Board) (my : Cell) : List Board :=
  if countPieces s < 8 then
    cells25.filterMap (fun c =>
      if cell s c.1 c.2 = Cell.empty then some (setCell s c.1 c.2 my) else none)
  else
    let pieceLocs := cells25.filter (fun c => decide (cell s c.1 c.2 = my))
    pieceLocs.flatMap (fun c =>
      directions.filterMap (fun d =>
        let nx : Int := (c.1 : Int) + d.1
        let ny : Int := (c.2 : Int) + d.2
        if 0 ≤ nx ∧ nx < 5 ∧ 0 ≤ ny ∧ ny < 5 ∧ cell s nx.toNat ny.toNat = Cell.empty then
          some (setCell (setCell s nx.toNat ny.toNat my) c.1 c.2 Cell.empty)
        else none))

/-- The 10 horizontal 4-cell windows, in the scan order of `game_value`
(`for row: for j in range(2)`). -/
def rowWindows : List (List (Nat × Nat)) :=
  (List.range 5).flatMap (fun i => (List.range 2).map (fun j =>
    (List.range 4).map (fun k => (i, j + k))))

/-- The 10 vertical 4-cell windows, in the scan order of `game_value`
(`for i in range(2): for j in range(5)`). -/
def colWindows : List (List (Nat × Nat)) :=
  (List.range 2).flatMap (fun i => (List.range 5).map (fun j =>
    (List.range 4).map (fun k => (i + k, j))))

/-- The 4 down-right diagonal windows, in scan order. -/
def diagDRWindows : List (List (Nat × Nat)) :=
  (List.range 2).flatMap (fun i => (List.range 2).map (fun j =>
    (List.range 4).map (fun k => (i + k, j + k))))

/-- The 4 down-left diagonal windows, in scan order (`for j in range(4, 2, -1)`,
so anchor columns 4 then 3). -/
def diagDLWindows : List (List (Nat × Nat)) :=
  (List.range 2).flatMap (fun i => [4, 3].map (fun j =>
    (List.range 4).map (fun k => (i + k, j - k))))

/-- The 16 2×2 windows of `game_value`, in scan order, each listed as
`[(i,j), (i,j+1), (i+1,j), (i+1,j+1)]`. -/
def squareWindows : List (List (Nat × Nat)) :=
  (List.range 4).flatMap (fun i => (List.range 4).map (fun j =>
    [(i, j), (i, j + 1), (i + 1, j), (i + 1, j + 1)]))

/-- All line (row/column/diagonal) windows in the order `game_value` scans them. -/
def lineWindows : List (List (Nat × Nat)) :=
  rowWindows ++ colWindows ++ diagDRWindows ++ diagDLWindows

/-- Every cell of window `w` holds piece `p`. -/
def wAll (s : Board) (p : Cell) (w : List (Nat × Nat)) : Bool :=
  w.all (fun c => decide (cell s c.1 c.2 = p))

/-- One line-window check of `game_value`: `my_piece` first, then the opponent. -/
def winCheckLine (s : Board) (my opp : Cell) (w : List (Nat × Nat)) : Option Int :=
  if wAll s my w then some 1
  else if wAll s opp w then some (-1)
  else none

/-- One 2×2-window check of `game_value`: the four cells are chained for
equality, then the shared value is compared with `my_piece` and the opponent. -/
def winCheckSquare (s : Board) (my opp : Cell) (w : List (Nat × Nat)) : Option Int :=
  match w with
  | [c1, c2, c3, c4] =>
    if cell s c1.1 c1.2 = cell s c2.1 c2.2 ∧ cell s c2.1 c2.2 = cell s c3.1 c3.2 ∧
        cell s c3.1 c3.2 = cell s c4.1 c4.2 then
      if cell s c1.1 c1.2 = my then some 1
      else if cell s c1.1 c1.2 = opp then some (-1)
      else none
    else none
  | _ => none

/-- Scan a list of windows with a per-window check, returning at the first hit
(the Python early `return`). -/
def scanChecks (f : List (Nat × Nat) → Option Int) : List (List (Nat × Nat)) → Option Int
  | [] => none
  | w :: ws =>
    match f w with
    | some v => some v
    | none => scanChecks f ws

/-- `TeekoPlayer.game_value` (game.py lines 391–446): scan horizontal, vertical,
down-right diagonal, down-left diagonal windows (self checked before opponent
in each window), then the 2×2 windows; `0` if nothing matches. -/
def game_value (s : Board) (my : Cell) : Int :=
  let opp := oppOf my
  match scanChecks (winCheckLine s my opp) lineWindows with
  | some v => v
  | none =>
    match scanChecks (winCheckSquare s my opp) squareWindows with
    | some v => v
    | none => 0

/-- `TeekoPlayer.evaluate_line` (game.py lines 207–227). -/
def evaluate_line (line : List Cell) (my opp : Cell) : ℚ :=
  let myc := line.count my
  let oppc := line.count opp
  let ec := line.count Cell.empty
  if oppc > 0 ∧ myc > 0 then
    (if oppc = 3 ∧ ec = 1 then (0.75 : ℚ) else 0) +
      0.15 * (myc : ℚ) - 0.25 * (oppc : ℚ) + 0.05 * (ec : ℚ)
  else if myc = 3 ∧ ec = 1 then 0.75
  else if myc = 2 ∧ 2 ≤ ec then 0.50
  else if myc = 1 then 0.25
  else 0

/-- `TeekoPlayer.evaluate_square` (game.py lines 229–272); the argument is the
2×2 window `[a, b, c, d]` (top row then bottom row). -/
def evaluate_square (sq : List Cell) (my opp : Cell) : ℚ :=
  match sq with
  | [a, b, c, d] =>
    let myc := sq.count my
    let oppc := sq.count opp
    let ec := sq.count Cell.empty
    if myc > 0 ∧ oppc > 0 then
      max (min (0.15 * (myc : ℚ) - 0.25 * (oppc : ℚ) + 0.05 * (ec : ℚ)) 0.4) (-0.4)
    else
      let s1 : ℚ := if a = my ∧ b = my then 0.22 else 0
      let s2 : ℚ := if c = my ∧ d = my then 0.22 else 0
      let s3 : ℚ := if a = my ∧ c = my then 0.22 else 0
      let s4 : ℚ := if b = my ∧ d = my then 0.22 else 0
      let s5 : ℚ := if a = my ∧ d = my then 0.28 else 0
      let s6 : ℚ := if b = my ∧ c = my then 0.28 else 0
      min (s1 + s2 + s3 + s4 + s5 + s6 + 0.10 * (myc : ℚ) + 0.05 * (ec : ℚ)) 0.9
  | _ => 0

/-- The `top_two_sum` helper of `heuristic_game_value`: largest and
second-largest entries of a bucket (`(0, 0)` for an empty bucket, second is
`0` for a singleton). -/
def top_two_sum (l : List ℚ) : ℚ × ℚ :=
  if l = [] then (0, 0)
  else
    let sorted := l.insertionSort (· ≤ ·)
    (sorted.getD (sorted.length - 1) 0,
     if 2 ≤ sorted.length then sorted.getD (sorted.length - 2) 0 else 0)

/-- The cell values of a window on board `s`. -/
def windowVals (s : Board) (w : List (Nat × Nat)) : List Cell :=
  w.map (fun c => cell s c.1 c.2)

/-- `TeekoPlayer.heuristic_game_value` (game.py lines 274–389): terminal values
pass through; otherwise all 28 line windows and 16 square windows are scored
for both sides, each of the four buckets contributes its maximum plus a
quarter of its second maximum, and a fixed centre bonus is added. -/
def heuristic_game_value (s : Board) (my : Cell) : ℚ :=
  let gv := game_value s my
  if gv ≠ 0 then (gv : ℚ)
  else
    let opp := oppOf my
    let myH := rowWindows.map (fun w => evaluate_line (windowVals s w) my opp)
    let oppH := rowWindows.map (fun w => evaluate_line (windowVals s w) opp my)
    let myV := colWindows.map (fun w => evaluate_line (windowVals s w) my opp)
    let oppV := colWindows.map (fun w => evaluate_line (windowVals s w) opp my)
    let myD := (diagDRWindows ++ diagDLWindows).map
      (fun w => evaluate_line (windowVals s w) my opp)
    let oppD := (diagDRWindows ++ diagDLWindows).map
      (fun w => evaluate_line (windowVals s w) opp my)
    let myS := squareWindows.map (fun w => evaluate_square (windowVals s w) my opp)
    let oppS := squareWindows.map (fun w => evaluate_square (windowVals s w) opp my)
    let th := top_two_sum myH
    let tv := top_two_sum myV
    let td := top_two_sum myD
    let ts := top_two_sum myS
    let oh := top_two_sum oppH
    let ov := top_two_sum oppV
    let od := top_two_sum oppD
    let os := top_two_sum oppS
    let myHeur := th.1 + 0.25 * th.2 + tv.1 + 0.25 * tv.2 +
      td.1 + 0.25 * td.2 + ts.1 + 0.25 * ts.2
    let oppHeur := oh.1 + 0.25 * oh.2 + ov.1 + 0.25 * ov.2 +
      od.1 + 0.25 * od.2 + os.1 + 0.25 * os.2
    let c0 : ℚ := if cell s 2 2 = my then 0.03 else if cell s 2 2 = opp then -0.03 else 0
    let c1 := [(1, 2), (2, 1), (2, 3), (3, 2)].foldl
      (fun acc p => if cell s p.1 p.2 = my then acc + 0.02
        else if cell s p.1 p.2 = opp then acc - 0.02 else acc) c0
    let c2 := [(1, 1), (1, 3), (3, 1), (3, 3)].foldl
      (fun acc p => if cell s p.1 p.2 = my then acc + 0.015
        else if cell s p.1 p.2 = opp then acc - 0.015 else acc) c1
    myHeur - oppHeur + c2

/-- Adaptive depth selection of `TeekoPlayer.make_move` (game.py lines 46–59):
`total_pieces` is the number of non-empty cells. -/
def searchDepth (s : Board) : Nat :=
  if countPieces s < 8 then
    if countPieces s ≤ 4 then 3
    else if countPieces s ≤ 6 then 4
    else 5
  else 5

/-- Search values: rationals extended with `float('-inf')` and `float('inf')`. -/
abbrev V := WithBot (WithTop ℚ)

/-- Embed a rational as a (finite) search value. -/
def vq (q : ℚ) : V := ((q : WithTop ℚ) : V)

/-- The maximizing-player successor loop of `TeekoPlayer.minimax`: strict
improvement replaces the best value/state, `alpha` absorbs the running best,
and iteration stops when `alpha >= beta`. -/
def maxLoop (f : Board → V → V) (beta : V) :
    List Board → V → V → Option Board → V × Option Board
  | [], _, best, bs => (best, bs)
  | c :: rest, alpha, best, bs =>
    let v := f c alpha
    let best' := if best < v then v else best
    let bs' := if best < v then some c else bs
    let alpha' := max alpha best'
    if beta ≤ alpha' then (best', bs') else maxLoop f beta rest alpha' best' bs'

/-- The minimizing-player successor loop of `TeekoPlayer.minimax`. -/
def minLoop (f : Board → V → V) (alpha : V) :
    List Board → V → V → Option Board → V × Option Board
  | [], _, best, bs => (best, bs)
  | c :: rest, beta, best, bs =>
    let v := f c beta
    let best' := if v < best then v else best
    let bs' := if v < best then some c else bs
    let beta' := min beta best'
    if beta' ≤ alpha then (best', bs') else minLoop f alpha rest beta' best' bs'

/-- `TeekoPlayer.minimax` (game.py lines 448–495), with the recursion depth
bounded by explicit fuel.  `md` is `self.max_depth`; the search never recurses
once `depth >= md`, so with fuel `md - depth` the fuel-exhausted branch
(returning the heuristic, like the depth-limit branch) is unreachable from
`minimax` below. -/
def mmAux (md : Nat) (my : Cell) : Nat → Board → Nat → V → V → V × Option Board
  | fuel, s, d, alpha, beta =>
    let gv := game_value s my
    if gv ≠ 0 then (vq (gv : ℚ), some s)
    else if md ≤ d then (vq (heuristic_game_value s my), some s)
    else
      match fuel with
      | 0 => (vq (heuristic_game_value s my), some s)
      | fuel' + 1 =>
        if d % 2 = 0 then
          let ss := succ s my
          if ss = [] then (vq (heuristic_game_value s my), some s)
          else maxLoop (fun c a => (mmAux md my fuel' c (d + 1) a beta).1) beta ss alpha ⊥ none
        else
          let ss := succ s (oppOf my)
          if ss = [] then (vq (heuristic_game_value s my), some s)
          else minLoop (fun c b => (mmAux md my fuel' c (d + 1) alpha b).1) alpha ss beta ⊤ none

/-- `TeekoPlayer.minimax` at depth `d` with depth limit `md`: the returned pair
is the node value and the chosen successor (`none` models Python's `None`). -/
def minimax (md : Nat) (my : Cell) (s : Board) (d : Nat) (alpha beta : V) :
    V × Option Board :=
  mmAux md my (md - d) s d alpha beta

/-- The maximizing successor loop of the exhaustive reference search: identical
first-strict-improvement tie-break, no pruning. -/
def fullMax (g : Board → V) : List Board → V → Option Board → V × Option Board
  | [], best, bs => (best, bs)
  | c :: rest, best, bs =>
    let v := g c
    if best < v then fullMax g rest v (some c) else fullMax g rest best bs

/-- The minimizing successor loop of the exhaustive reference search. -/
def fullMin (g : Board → V) : List Board → V → Option Board → V × Option Board
  | [], best, bs => (best, bs)
  | c :: rest, best, bs =>
    let v := g c
    if v < best then fullMin g rest v (some c) else fullMin g rest best bs

/-- Modelled from the spec: the exhaustive depth-limited minimax of §4.5
without alpha-beta pruning — same terminal/depth/no-successor handling and the
identical "first successor to achieve a new best wins ties" rule — used as the
reference point for the pruning-equivalence claim. -/
def fmAux (md : Nat) (my : Cell) : Nat → Board → Nat → V × Option Board
  | fuel, s, d =>
    let gv := game_value s my
    if gv ≠ 0 then (vq (gv : ℚ), some s)
    else if md ≤ d then (vq (heuristic_game_value s my), some s)
    else
      match fuel with
      | 0 => (vq (heuristic_game_value s my), some s)
      | fuel' + 1 =>
        if d % 2 = 0 then
          let ss := succ s my
          if ss = [] then (vq (heuristic_game_value s my), some s)
          else fullMax (fun c => (fmAux md my fuel' c (d + 1)).1) ss ⊥ none
        else
          let ss := succ s (oppOf my)
          if ss = [] then (vq (heuristic_game_value s my), some s)
          else fullMin (fun c => (fmAux md my fuel' c (d + 1)).1) ss ⊤ none

/-- The exhaustive reference search at depth `d` with depth limit `md`. -/
def minimaxFull (md : Nat) (my : Cell) (s : Board) (d : Nat) : V × Option Board :=
  fmAux md my (md - d) s d

/-- The move-phase diff scan of `TeekoPlayer.make_move` (lines 81–93):
row-major scan recording the latest destination candidate (original empty,
chosen holds the mover's piece) and source candidate (original holds the
mover's piece, chosen empty), stopping as soon as both are present. -/
def findMoveAux (s best : Board) (my : Cell) :
    List (Nat × Nat) → Option (Nat × Nat) → Option (Nat × Nat) →
    Option (Nat × Nat) × Option (Nat × Nat)
  | [], dest, src => (dest, src)
  | c :: rest, dest, src =>
    let dest' := if cell s c.1 c.2 = Cell.empty ∧ cell best c.1 c.2 = my then some c else dest
    let src' := if cell s c.1 c.2 = my ∧ cell best c.1 c.2 = Cell.empty then some c else src
    if dest'.isSome ∧ src'.isSome then (dest', src')
    else findMoveAux s best my rest dest' src'

/-- The move translation of `TeekoPlayer.make_move` (lines 69–99): in drop
phase the first row-major cell where the two states differ; in move phase the
`[destination, source]` pair found by `findMoveAux`; `[]` when nothing is
found (the Python `move = []` fallthrough). -/
def translateMove (s best : Board) (my : Cell) : List (Nat × Nat) :=
  if countPieces s < 8 then
    match cells25.find? (fun c => decide (cell s c.1 c.2 ≠ cell best c.1 c.2)) with
    | some c => [c]
    | none => []
  else
    match findMoveAux s best my cells25 none none with
    | (some d, some src) => [d, src]
    | _ => []

/-- `TeekoPlayer.place_piece` (game.py lines 179–196) as a function on board
values: a two-element move first clears the source, then the destination is
set to `piece`. -/
def place_piece (bd : Board) (mv : List (Nat × Nat)) (p : Cell) : Board :=
  match mv with
  | [] => bd
  | [d] => setCell bd d.1 d.2 p
  | d :: src :: _ => setCell (setCell bd src.1 src.2 Cell.empty) d.1 d.2 p

/- ### Explicit-heap model of the successor generator

Python boards are lists of five row-list objects.  `Heap.rows` stores the
contents of every row object by reference (a natural number), `Heap.next` is
the allocation counter, and a board object is its list of row references.
`copy.deepcopy` allocates fresh row objects; `state_copy[x][y] = v` mutates
one row object in place. -/

structure Heap where
  rows : Nat → List Cell
  next : Nat

/-- Read a cell through the heap: row reference `b[i]`, then entry `j`. -/
def readCellH (h : Heap) (b : List Nat) (i j : Nat) : Cell :=
  (h.rows (b.getD i 0)).getD j Cell.empty

/-- Allocate a fresh row object with the given contents. -/
def allocRow (h : Heap) (content : List Cell) : Heap × Nat :=
  ({ rows := Function.update h.rows h.next content, next := h.next + 1 }, h.next)

/-- `copy.deepcopy` of a board: allocate a fresh row object per row, copying
the current contents, and return the new list of row references. -/
def deepcopy (h : Heap) (b : List Nat) : Heap × List Nat :=
  b.foldl (fun acc r =>
    let al := allocRow acc.1 (acc.1.rows r)
    (al.1, acc.2 ++ [al.2])) (h, [])

/-- In-place write `b[i][j] = v`: mutate the row object referenced by `b[i]`. -/
def writeCellH (h : Heap) (b : List Nat) (i j : Nat) (v : Cell) : Heap :=
  let r := b.getD i 0
  { rows := Function.update h.rows r ((h.rows r).set j v), next := h.next }

/-- Build one successor: deep-copy the input board, then apply the in-place
writes (`(row, col, value)` triples) to the fresh copy. -/
def mkSuccH (h : Heap) (b : List Nat) (ws : List (Nat × Nat × Cell)) : Heap × List Nat :=
  let dc := deepcopy h b
  (ws.foldl (fun hh w => writeCellH hh dc.2 w.1 w.2.1 w.2.2) dc.1, dc.2)

/-- One candidate step of the successor loops: when the guard fires (returning
the writes for the new successor), allocate and append the successor. -/
def condAllocStep (b : List Nat) (f : Heap → α → Option (List (Nat × Nat × Cell)))
    (acc : Heap × List (List Nat)) (x : α) : Heap × List (List Nat) :=
  match f acc.1 x with
  | none => acc
  | some ws =>
    let hs := mkSuccH acc.1 b ws
    (hs.1, acc.2 ++ [hs.2])

/-- `TeekoPlayer.succ` on the explicit heap: same loops and guards as `succ`,
but every successor is a freshly allocated deep copy mutated in place. -/
def succH (h : Heap) (b : List Nat) (my : Cell) : Heap × List (List Nat) :=
  let total := (cells25.filter (fun c => decide (readCellH h b c.1 c.2 ≠ Cell.empty))).length
  if total < 8 then
    cells25.foldl (condAllocStep b (fun hh c =>
      if readCellH hh b c.1 c.2 = Cell.empty then some [(c.1, c.2, my)] else none)) (h, [])
  else
    let pieceLocs := cells25.filter (fun c => decide (readCellH h b c.1 c.2 = my))
    (pieceLocs.flatMap (fun c => directions.map (fun d => (c, d)))).foldl
      (condAllocStep b (fun hh cd =>
        let nx : Int := (cd.1.1 : Int) + cd.2.1
        let ny : Int := (cd.1.2 : Int) + cd.2.2
        if 0 ≤ nx ∧ nx < 5 ∧ 0 ≤ ny ∧ ny < 5 ∧ readCellH hh b nx.toNat ny.toNat = Cell.empty then
          some [(nx.toNat, ny.toNat, my), (cd.1.1, cd.1.2, Cell.empty)]
        else none)) (h, [])

/- ### Spec-side definitions (used to state the claims) -/

/-- The winning-shape windows as enumerated in the spec (§4.3): horizontal and
vertical 4-windows, both diagonal families, and the 2×2 blocks. -/
def specWindows : List (List (Nat × Nat)) :=
  ((List.range 5).flatMap (fun r => (List.range 2).map (fun o =>
    (List.range 4).map (fun k => (r, o + k)))))
  ++ ((List.range 5).flatMap (fun c => (List.range 2).map (fun o =>
    (List.range 4).map (fun k => (o + k, c)))))
  ++ ((List.range 2).flatMap (fun r => (List.range 2).map (fun c =>
    (List.range 4).map (fun k => (r + k, c + k)))))
  ++ ((List.range 2).flatMap (fun r => [4, 3].map (fun c =>
    (List.range 4).map (fun k => (r + k, c - k)))))
  ++ ((List.range 4).flatMap (fun r => (List.range 4).map (fun c =>
    [(r, c), (r, c + 1), (r + 1, c), (r + 1, c + 1)])))

/-- Board `s` contains a winning shape (4 in a line or a 2×2 block) of piece `p`. -/
def specWin (s : Board) (p : Cell) : Prop :=
  ∃ w ∈ specWindows, ∀ c ∈ w, cell s c.1 c.2 = p

instance (s : Board) (p : Cell) : Decidable (specWin s p) := by
  unfold specWin
  infer_instance

/-- The claimed piecewise definition of `evaluate_line` (spec §4.4), stated
verbatim from the spec's formula. -/
def specLineScore (line : List Cell) (subject other : Cell) : ℚ :=
  if line.count subject > 0 ∧ line.count other > 0 then
    (if line.count other = 3 ∧ line.count Cell.empty = 1 then (0.75 : ℚ) else 0) +
      0.15 * (line.count subject : ℚ) - 0.25 * (line.count other : ℚ) +
      0.05 * (line.count Cell.empty : ℚ)
  else if line.count subject = 3 ∧ line.count Cell.empty = 1 then 0.75
  else if line.count subject = 2 ∧ 2 ≤ line.count Cell.empty then 0.50
  else if line.count subject = 1 then 0.25
  else 0

/-- Chebyshev adjacency of two coordinates (distance exactly 1). -/
def chebAdj (a b : Nat × Nat) : Prop :=
  max (Nat.dist a.1 b.1) (Nat.dist a.2 b.2) = 1

instance (a b : Nat × Nat) : Decidable (chebAdj a b) := by
  unfold chebAdj
  infer_instance

/-- All (mover-piece cell, in-bounds empty neighbour at Chebyshev distance 1)
pairs of a state — the spec's move-phase branching measure. -/
def movePairs (s : Board) (my : Cell) : List ((Nat × Nat) × (Nat × Nat)) :=
  (cells25.flatMap (fun a => cells25.map (fun b => (a, b)))).filter
    (fun p => decide (cell s p.1.1 p.1.2 = my) &&
      decide (cell s p.2.1 p.2.2 = Cell.empty) && decide (chebAdj p.1 p.2))

/-- Number of legal move-phase (piece, destination) pairs. -/
def movePairCount (s : Board) (my : Cell) : Nat :=
  (movePairs s my).length

/-- Index of the first window (in a window list) satisfying `p`. -/
def firstIdxAux (p : List (Nat × Nat) → Bool) : List (List (Nat × Nat)) → Option Nat
  | [] => none
  | w :: ws => if p w then some 0 else (firstIdxAux p ws).map (· + 1)

/-- First index (in `game_value` scan order over all 44 windows) of a window
entirely occupied by piece `p`. -/
def winIdx (s : Board) (p : Cell) : Option Nat :=
  firstIdxAux (fun w => wAll s p w) (lineWindows ++ squareWindows)

/- ### Concrete boards for scenarios, witnesses and counterexamples -/

/-- Build a board from a row-major list of rows. -/
def boardOfLists (l : List (List Cell)) : Board :=
  fun i j => ((l.getD i.val []).getD j.val Cell.empty)

/-- The empty board. -/
def bEmpty : Board := fun _ _ => Cell.empty

/-- Scenario B board: row 0 is `[p, p, p, p, empty]`, rest empty. -/
def rowWinBoard (p : Cell) : Board :=
  boardOfLists [[p, p, p, p, Cell.empty]]

/-- Scenario C board: a 2×2 block of `p` anchored at (0,0), rest empty. -/
def blockBoard (p : Cell) : Board :=
  boardOfLists [[p, p, Cell.empty, Cell.empty, Cell.empty],
                [p, p, Cell.empty, Cell.empty, Cell.empty]]

/-- A dual-win board: red owns row 0 columns 0–3, black owns column 4 rows 0–3. -/
def dualWinBoard : Board :=
  boardOfLists [[Cell.red, Cell.red, Cell.red, Cell.red, Cell.black],
                [Cell.empty, Cell.empty, Cell.empty, Cell.empty, Cell.black],
                [Cell.empty, Cell.empty, Cell.empty, Cell.empty, Cell.black],
                [Cell.empty, Cell.empty, Cell.empty, Cell.empty, Cell.black]]

/-- A dual-win board where black's row-0 win precedes red's row-4 win. -/
def dualWinBoard2 : Board :=
  boardOfLists [[Cell.black, Cell.black, Cell.black, Cell.black, Cell.empty],
                [], [], [],
                [Cell.red, Cell.red, Cell.red, Cell.red, Cell.empty]]

/-- A quiet move-phase board: 4 black and 4 red pieces, no winning shape. -/
def bMove : Board :=
  boardOfLists [[Cell.black, Cell.empty, Cell.black, Cell.empty, Cell.black],
                [Cell.empty, Cell.empty, Cell.empty, Cell.empty, Cell.empty],
                [Cell.red, Cell.empty, Cell.red, Cell.empty, Cell.red],
                [Cell.empty, Cell.empty, Cell.empty, Cell.empty, Cell.empty],
                [Cell.black, Cell.empty, Cell.red, Cell.empty, Cell.empty]]

/-- A drop-phase board with 5 pieces. -/
def bFive : Board :=
  boardOfLists [[Cell.black, Cell.empty, Cell.red, Cell.empty, Cell.black],
                [Cell.empty, Cell.empty, Cell.empty, Cell.empty, Cell.empty],
                [Cell.red, Cell.empty, Cell.black, Cell.empty, Cell.empty]]

/-- A drop-phase board with 7 pieces. -/
def bSeven : Board :=
  boardOfLists [[Cell.black, Cell.empty, Cell.red, Cell.empty, Cell.black],
                [Cell.empty, Cell.red, Cell.empty, Cell.empty, Cell.empty],
                [Cell.red, Cell.empty, Cell.black, Cell.empty, Cell.black]]

/-- A fresh five-row heap whose rows are all empty. -/
def heap0 : Heap :=
  { rows := fun _ => List.replicate 5 Cell.empty, next := 5 }

/-- The board object of `heap0`: row references 0–4. -/
def hb0 : List Nat := [0, 1, 2, 3, 4]

/- ### Infrastructure for the alpha-beta correctness proof -/

/-- Running maximum of `g` over a successor list, starting from `base`
(the value computed by the exhaustive maximizing loop). -/
def foldMaxV (g : Board → V) (base : V) (l : List Board) : V :=
  l.foldl (fun x c => max x (g c)) base

/-- Running minimum of `g` over a successor list, starting from `base`. -/
def foldMinV (g : Board → V) (base : V) (l : List Board) : V :=
  l.foldl (fun x c => min x (g c)) base

/-- Fail-soft relation of alpha-beta search: `x` is the pruned value, `y` the
exhaustive value, `(a, b)` the search window.  Inside the window the values
agree; outside it the pruned value fails on the same side. -/
def fsRel (x y a b : V) : Prop :=
  (y ≤ a → x ≤ a ∧ y ≤ x) ∧ (b ≤ y → b ≤ x ∧ x ≤ y) ∧ (a < y → y < b → x = y)

/-! ### Helper lemmas -/

theorem count_cells_sum (line : List Cell) :
    line.count Cell.black + line.count Cell.red + line.count Cell.empty = line.length := by
  induction line with
  | nil => simp
  | cons c cs ih => cases c <;> simp [List.count_cons] <;> omega

/-! ### Claim theorems -/

/-- C4: for every state whose `game_value` is non-zero, `minimax` returns that
signed terminal value (as a search value) paired with the unchanged input
state, for every depth, alpha and beta — the heuristic is bypassed and no
successors are explored. -/
theorem minimax_terminal (md : Nat) (my : Cell) (s : Board) (d : Nat) (alpha beta : V)
    (h : game_value s my ≠ 0) :
    minimax md my s d alpha beta = (vq ((game_value s my : ℤ) : ℚ), some s) := by
  unfold minimax mmAux
  simp [h]

/-- Witness for `minimax_terminal`: a board with four black pieces in row 0. -/
theorem minimax_terminal_witness :
    game_value (rowWinBoard Cell.black) Cell.black ≠ 0 ∧
    minimax 3 Cell.black (rowWinBoard Cell.black) 0 ⊥ ⊤ =
      (vq ((game_value (rowWinBoard Cell.black) Cell.black : ℤ) : ℚ),
        some (rowWinBoard Cell.black)) :=
  ⟨by decide, minimax_terminal 3 Cell.black (rowWinBoard Cell.black) 0 ⊥ ⊤ (by decide)⟩

/-- C6: the root depth limit is a function of the piece count: at most 4
pieces gives depth 3, 5–6 pieces give depth 4, 7 pieces give depth 5, and the
move phase (8 or more pieces) always gives depth 5; an empty board resolves
to depth 3. -/
theorem searchDepth_spec (s : Board) :
    (countPieces s ≤ 4 → searchDepth s = 3) ∧
    (5 ≤ countPieces s → countPieces s ≤ 6 → searchDepth s = 4) ∧
    (countPieces s = 7 → searchDepth s = 5) ∧
    (8 ≤ countPieces s → searchDepth s = 5) ∧
    searchDepth bEmpty = 3 := by
  refine ⟨fun h => ?_, fun h1 h2 => ?_, fun h => ?_, fun h => ?_, by decide⟩ <;>
    (unfold searchDepth; split_ifs <;> omega)

/-- Witness for `searchDepth_spec`, covering each hypothesis at a concrete board. -/
theorem searchDepth_spec_witness :
    countPieces bFive = 5 ∧ searchDepth bFive = 4 ∧
    countPieces bSeven = 7 ∧ searchDepth bSeven = 5 ∧
    8 ≤ countPieces bMove ∧ searchDepth bMove = 5 ∧
    countPieces bEmpty ≤ 4 ∧ searchDepth bEmpty = 3 :=
  ⟨by decide, (searchDepth_spec bFive).2.1 (by decide) (by decide),
   by decide, (searchDepth_spec bSeven).2.2.1 (by decide),
   by decide, (searchDepth_spec bMove).2.2.2.1 (by decide),
   by decide, (searchDepth_spec bEmpty).1 (by decide)⟩

/-- C7: on every 4-cell window `evaluate_line` computes exactly the spec's
piecewise formula, and Scenario D (`[self, self, self, empty]` scored for
self against the opponent) yields exactly 0.75, for either colour as self. -/
theorem evaluate_line_spec (line : List Cell) (my opp : Cell) (h : line.length = 4) :
    evaluate_line line my opp = specLineScore line my opp ∧
    evaluate_line [Cell.black, Cell.black, Cell.black, Cell.empty] Cell.black Cell.red = 0.75 ∧
    evaluate_line [Cell.red, Cell.red, Cell.red, Cell.empty] Cell.red Cell.black = 0.75 := by
  refine ⟨?_, ?f1, ?f2⟩
  case f1 =>
    have h1 : [Cell.black, Cell.black, Cell.black, Cell.empty].count Cell.black = 3 := by decide
    have h2 : [Cell.black, Cell.black, Cell.black, Cell.empty].count Cell.red = 0 := by decide
    have h3 : [Cell.black, Cell.black, Cell.black, Cell.empty].count Cell.empty = 1 := by decide
    simp only [evaluate_line, h1, h2, h3]
    norm_num
  case f2 =>
    have h1 : [Cell.red, Cell.red, Cell.red, Cell.empty].count Cell.red = 3 := by decide
    have h2 : [Cell.red, Cell.red, Cell.red, Cell.empty].count Cell.black = 0 := by decide
    have h3 : [Cell.red, Cell.red, Cell.red, Cell.empty].count Cell.empty = 1 := by decide
    simp only [evaluate_line, h1, h2, h3]
    norm_num
  simp only [evaluate_line, specLineScore]
  by_cases hmix : line.count opp > 0 ∧ line.count my > 0
  · rw [if_pos hmix,
      if_pos (show line.count my > 0 ∧ line.count opp > 0 from ⟨hmix.2, hmix.1⟩)]
  · rw [if_neg hmix,
      if_neg (show ¬(line.count my > 0 ∧ line.count opp > 0) from fun hc => hmix ⟨hc.2, hc.1⟩)]

/-- Witness for `evaluate_line_spec` at a concrete mixed window. -/
theorem evaluate_line_spec_witness :
    [Cell.black, Cell.red, Cell.empty, Cell.empty].length = 4 ∧
    evaluate_line [Cell.black, Cell.red, Cell.empty, Cell.empty] Cell.black Cell.red =
      specLineScore [Cell.black, Cell.red, Cell.empty, Cell.empty] Cell.black Cell.red :=
  ⟨by decide,
   (evaluate_line_spec [Cell.black, Cell.red, Cell.empty, Cell.empty]
     Cell.black Cell.red (by decide)).1⟩

/-- C10: on a 4-cell window containing both real piece identities, the mixed
branch's 0.75 block bonus can never fire (`other = 3` and `empty = 1` would
need 5 cells), so `evaluate_line` returns exactly the linear combination
`0.15·subject − 0.25·other + 0.05·empty`. -/
theorem evaluate_line_mixed_no_bonus (line : List Cell) (my opp : Cell)
    (hpieces : (my = Cell.black ∧ opp = Cell.red) ∨ (my = Cell.red ∧ opp = Cell.black))
    (hlen : line.length = 4)
    (hmy : 0 < line.count my) (hopp : 0 < line.count opp) :
    ¬(line.count opp = 3 ∧ line.count Cell.empty = 1) ∧
    evaluate_line line my opp =
      0.15 * (line.count my : ℚ) - 0.25 * (line.count opp : ℚ) +
        0.05 * (line.count Cell.empty : ℚ) := by
  have hsum := count_cells_sum line
  have hno : ¬(line.count opp = 3 ∧ line.count Cell.empty = 1) := by
    rcases hpieces with ⟨h1, h2⟩ | ⟨h1, h2⟩ <;> subst h1 <;> subst h2 <;> omega
  refine ⟨hno, ?_⟩
  unfold evaluate_line
  rw [if_pos ⟨hopp, hmy⟩, if_neg hno]
  ring

/-- Witness for `evaluate_line_mixed_no_bonus` at a concrete mixed window. -/
theorem evaluate_line_mixed_no_bonus_witness :
    ¬(([Cell.black, Cell.red, Cell.red, Cell.empty].count Cell.red = 3) ∧
      ([Cell.black, Cell.red, Cell.red, Cell.empty].count Cell.empty = 1)) ∧
    evaluate_line [Cell.black, Cell.red, Cell.red, Cell.empty] Cell.black Cell.red =
      0.15 * ([Cell.black, Cell.red, Cell.red, Cell.empty].count Cell.black : ℚ) -
        0.25 * ([Cell.black, Cell.red, Cell.red, Cell.empty].count Cell.red : ℚ) +
        0.05 * ([Cell.black, Cell.red, Cell.red, Cell.empty].count Cell.empty : ℚ) :=
  evaluate_line_mixed_no_bonus [Cell.black, Cell.red, Cell.red, Cell.empty]
    Cell.black Cell.red (Or.inl ⟨rfl, rfl⟩) (by decide) (by decide) (by decide)

theorem scanChecks_eq_some {f : List (Nat × Nat) → Option Int} {l : List (List (Nat × Nat))}
    {v : Int} (h : scanChecks f l = some v) : ∃ w ∈ l, f w = some v := by
  induction l with
  | nil => simp [scanChecks] at h
  | cons w ws ih =>
    cases hw : f w with
    | some u =>
      have he : scanChecks f (w :: ws) = some u := by simp [scanChecks, hw]
      rw [he] at h
      exact ⟨w, List.mem_cons_self w ws, by rw [hw, Option.some_inj.mp h]⟩
    | none =>
      have he : scanChecks f (w :: ws) = scanChecks f ws := by simp [scanChecks, hw]
      rw [he] at h
      obtain ⟨w2, hw2, hv2⟩ := ih h
      exact ⟨w2, List.mem_cons_of_mem w hw2, hv2⟩

theorem winCheckLine_cases {s : Board} {my opp : Cell} {w : List (Nat × Nat)} {v : Int}
    (h : winCheckLine s my opp w = some v) :
    (v = 1 ∧ wAll s my w = true) ∨ (v = -1 ∧ wAll s opp w = true) := by
  unfold winCheckLine at h
  split_ifs at h with h1 h2
  · exact Or.inl ⟨(Option.some_inj.mp h).symm, h1⟩
  · exact Or.inr ⟨(Option.some_inj.mp h).symm, h2⟩

theorem winCheckSquare_cases {s : Board} {my opp : Cell} {w : List (Nat × Nat)} {v : Int}
    (h : winCheckSquare s my opp w = some v) :
    (v = 1 ∧ wAll s my w = true) ∨ (v = -1 ∧ wAll s opp w = true) := by
  rcases w with _ | ⟨c1, w⟩
  · simp [winCheckSquare] at h
  rcases w with _ | ⟨c2, w⟩
  · simp [winCheckSquare] at h
  rcases w with _ | ⟨c3, w⟩
  · simp [winCheckSquare] at h
  rcases w with _ | ⟨c4, w⟩
  · simp [winCheckSquare] at h
  rcases w with _ | ⟨c5, w⟩
  on_goal 2 => simp [winCheckSquare] at h
  simp only [winCheckSquare] at h
  split_ifs at h with hc h1 h2
  · refine Or.inl ⟨(Option.some_inj.mp h).symm, ?_⟩
    have e2 : cell s c2.1 c2.2 = my := hc.1 ▸ h1
    have e3 : cell s c3.1 c3.2 = my := by rw [← hc.2.1, ← hc.1]; exact h1
    have e4 : cell s c4.1 c4.2 = my := by rw [← hc.2.2, ← hc.2.1, ← hc.1]; exact h1
    simp [wAll, h1, e2, e3, e4]
  · refine Or.inr ⟨(Option.some_inj.mp h).symm, ?_⟩
    have e2 : cell s c2.1 c2.2 = opp := hc.1 ▸ h2
    have e3 : cell s c3.1 c3.2 = opp := by rw [← hc.2.1, ← hc.1]; exact h2
    have e4 : cell s c4.1 c4.2 = opp := by rw [← hc.2.2, ← hc.2.1, ← hc.1]; exact h2
    simp [wAll, h2, e2, e3, e4]

theorem windows_sub_spec : ∀ w ∈ lineWindows ++ squareWindows, w ∈ specWindows := by decide

theorem specWin_of_wAll {s : Board} {p : Cell} {w : List (Nat × Nat)}
    (hw : w ∈ lineWindows ++ squareWindows) (h : wAll s p w = true) : specWin s p := by
  refine ⟨w, windows_sub_spec w hw, ?_⟩
  intro c hc
  simp only [wAll, List.all_eq_true, decide_eq_true_eq] at h
  exact h c hc

theorem game_value_cases (s : Board) (my : Cell) :
    game_value s my = 0 ∨
    (game_value s my = 1 ∧ ∃ w ∈ lineWindows ++ squareWindows, wAll s my w = true) ∨
    (game_value s my = -1 ∧ ∃ w ∈ lineWindows ++ squareWindows, wAll s (oppOf my) w = true) := by
  have hgv : game_value s my =
      (match scanChecks (winCheckLine s my (oppOf my)) lineWindows with
        | some v => v
        | none =>
          match scanChecks (winCheckSquare s my (oppOf my)) squareWindows with
          | some v => v
          | none => 0) := rfl
  rw [hgv]
  cases hl : scanChecks (winCheckLine s my (oppOf my)) lineWindows with
  | some v =>
    obtain ⟨w, hw, hfw⟩ := scanChecks_eq_some hl
    rcases winCheckLine_cases hfw with ⟨hv, hall⟩ | ⟨hv, hall⟩
    · exact Or.inr (Or.inl ⟨by simp [hv], w, List.mem_append_left _ hw, hall⟩)
    · exact Or.inr (Or.inr ⟨by simp [hv], w, List.mem_append_left _ hw, hall⟩)
  | none =>
    cases hs : scanChecks (winCheckSquare s my (oppOf my)) squareWindows with
    | some v =>
      obtain ⟨w, hw, hfw⟩ := scanChecks_eq_some hs
      rcases winCheckSquare_cases hfw with ⟨hv, hall⟩ | ⟨hv, hall⟩
      · exact Or.inr (Or.inl ⟨by simp [hv], w, List.mem_append_right _ hw, hall⟩)
      · exact Or.inr (Or.inr ⟨by simp [hv], w, List.mem_append_right _ hw, hall⟩)
    | none => exact Or.inl rfl

/-- C2: `game_value` always returns one of −1, 0, +1; it returns +1 only when
the board contains a winning shape (4 in a row/column/diagonal or a 2×2
block) of self's piece and −1 only when the opponent's piece forms such a
shape; Scenario B (four self pieces in row 0 gives +1) and Scenario C (an
opponent 2×2 block at (0,0) gives −1) hold for either colour as self. -/
theorem game_value_sound (s : Board) (my : Cell) :
    (game_value s my = 1 ∨ game_value s my = 0 ∨ game_value s my = -1) ∧
    (game_value s my = 1 → specWin s my) ∧
    (game_value s my = -1 → specWin s (oppOf my)) ∧
    game_value (rowWinBoard Cell.black) Cell.black = 1 ∧
    game_value (rowWinBoard Cell.red) Cell.red = 1 ∧
    game_value (blockBoard Cell.red) Cell.black = -1 ∧
    game_value (blockBoard Cell.black) Cell.red = -1 := by
  have hcs := game_value_cases s my
  refine ⟨?_, fun h1 => ?_, fun h1 => ?_, by decide, by decide, by decide, by decide⟩
  · rcases hcs with h | ⟨h, _⟩ | ⟨h, _⟩ <;> omega
  · rcases hcs with h | ⟨h, w, hw, hall⟩ | ⟨h, w, hw, hall⟩
    · exact absurd h1 (by omega)
    · exact specWin_of_wAll hw hall
    · exact absurd h1 (by omega)
  · rcases hcs with h | ⟨h, w, hw, hall⟩ | ⟨h, w, hw, hall⟩
    · exact absurd h1 (by omega)
    · exact absurd h1 (by omega)
    · exact specWin_of_wAll hw hall

/-- Witness for `game_value_sound`: the implications applied at Scenario B and
Scenario C boards. -/
theorem game_value_sound_witness :
    specWin (rowWinBoard Cell.black) Cell.black ∧
    specWin (blockBoard Cell.red) (oppOf Cell.black) :=
  ⟨(game_value_sound (rowWinBoard Cell.black) Cell.black).2.1 (by decide),
   (game_value_sound (blockBoard Cell.red) Cell.black).2.2.1 (by decide)⟩

/-- C3 counterexample: on `dualWinBoard` both self (black) and the opponent
(red) have completed winning shapes, yet `game_value` returns −1, not +1:
the opponent's row-0 window is scanned before self's column-4 window. -/
theorem game_value_self_precedence_cex :
    specWin dualWinBoard Cell.black ∧ specWin dualWinBoard (oppOf Cell.black) ∧
    game_value dualWinBoard Cell.black = -1 ∧ ¬(game_value dualWinBoard Cell.black = 1) := by
  exact ⟨by decide, by decide, by decide, by decide⟩

theorem square_line_vals (my opp : Cell)
    (hp : (my = Cell.black ∧ opp = Cell.red) ∨ (my = Cell.red ∧ opp = Cell.black)) :
    ∀ v1 v2 v3 v4 : Cell,
      (if v1 = v2 ∧ v2 = v3 ∧ v3 = v4 then
        if v1 = my then some (1 : Int) else if v1 = opp then some (-1) else none
      else none) =
      (if v1 = my ∧ v2 = my ∧ v3 = my ∧ v4 = my then some 1
       else if v1 = opp ∧ v2 = opp ∧ v3 = opp ∧ v4 = opp then some (-1) else none) := by
  rcases hp with ⟨h1, h2⟩ | ⟨h1, h2⟩ <;> subst h1 <;> subst h2 <;> decide

theorem winCheckSquare_eq_line {s : Board} {my opp : Cell}
    (hp : (my = Cell.black ∧ opp = Cell.red) ∨ (my = Cell.red ∧ opp = Cell.black)) :
    ∀ w ∈ squareWindows, winCheckSquare s my opp w = winCheckLine s my opp w := by
  intro w hw
  simp only [squareWindows, List.mem_flatMap, List.mem_map, List.mem_range] at hw
  obtain ⟨i, hi, j, hj, rfl⟩ := hw
  have hv := square_line_vals my opp hp (cell s i j) (cell s i (j + 1))
    (cell s (i + 1) j) (cell s (i + 1) (j + 1))
  simp only [winCheckSquare, winCheckLine, wAll, List.all_cons, List.all_nil,
    Bool.and_eq_true, decide_eq_true_eq, and_true]
  exact hv

theorem scanChecks_append (f : List (Nat × Nat) → Option Int) (l1 l2 : List (List (Nat × Nat))) :
    scanChecks f (l1 ++ l2) =
      (match scanChecks f l1 with
       | some v => some v
       | none => scanChecks f l2) := by
  induction l1 with
  | nil => simp [scanChecks]
  | cons w ws ih =>
    cases hw : f w with
    | some v => simp [scanChecks, hw]
    | none => simp [scanChecks, hw, ih]

theorem scanChecks_congr {f g : List (Nat × Nat) → Option Int} :
    ∀ {l : List (List (Nat × Nat))}, (∀ w ∈ l, f w = g w) →
      scanChecks f l = scanChecks g l := by
  intro l
  induction l with
  | nil => intro _; rfl
  | cons w ws ih =>
    intro h
    have hw := h w (List.mem_cons_self w ws)
    cases hg : g w with
    | some v => simp [scanChecks, hw, hg]
    | none => simp [scanChecks, hw, hg, ih (fun x hx => h x (List.mem_cons_of_mem w hx))]

theorem wAll_not_both {s : Board} {my opp : Cell} (hne : my ≠ opp) {w : List (Nat × Nat)}
    (hw : w ≠ []) (h1 : wAll s my w = true) : wAll s opp w = false := by
  cases hb : wAll s opp w with
  | false => rfl
  | true =>
    exfalso
    rcases w with _ | ⟨c, w⟩
    · exact hw rfl
    · have e1 : cell s c.1 c.2 = my := by
        simp only [wAll, List.all_cons, Bool.and_eq_true, decide_eq_true_eq] at h1
        exact h1.1
      have e2 : cell s c.1 c.2 = opp := by
        simp only [wAll, List.all_cons, Bool.and_eq_true, decide_eq_true_eq] at hb
        exact hb.1
      rw [e1] at e2
      exact hne e2

theorem scan_firstIdx {s : Board} {my opp : Cell} (hne : my ≠ opp) :
    ∀ (l : List (List (Nat × Nat))), (∀ w ∈ l, w ≠ []) →
    ∀ {i j : Nat},
      firstIdxAux (fun w => wAll s my w) l = some i →
      firstIdxAux (fun w => wAll s opp w) l = some j →
      i ≠ j ∧ scanChecks (winCheckLine s my opp) l = some (if i < j then 1 else -1) := by
  intro l
  induction l with
  | nil =>
    intro _ i j hi _
    simp [firstIdxAux] at hi
  | cons w ws ih =>
    intro hnon i j hi hj
    by_cases hmy : wAll s my w = true
    · have hopp : wAll s opp w = false :=
        wAll_not_both hne (hnon w (List.mem_cons_self w ws)) hmy
      have hi0 : i = 0 := by
        simp [firstIdxAux, hmy] at hi
        omega
      simp only [firstIdxAux, hopp, Bool.false_eq_true, if_false] at hj
      obtain ⟨j2, hj2, rfl⟩ := Option.map_eq_some'.mp hj
      subst hi0
      refine ⟨by omega, ?_⟩
      have : (0 : Nat) < j2 + 1 := by omega
      simp [scanChecks, winCheckLine, hmy, this]
    · by_cases hopp : wAll s opp w = true
      · have hmyf : wAll s my w = false := by
          cases hx : wAll s my w with
          | false => rfl
          | true => exact absurd hx hmy
        have hj0 : j = 0 := by
          simp [firstIdxAux, hopp] at hj
          omega
        simp only [firstIdxAux, hmyf, Bool.false_eq_true, if_false] at hi
        obtain ⟨i2, hi2, rfl⟩ := Option.map_eq_some'.mp hi
        subst hj0
        refine ⟨by omega, ?_⟩
        have hlt : ¬(i2 + 1 < 0) := by omega
        simp [scanChecks, winCheckLine, hmyf, hopp, hlt]
      · have hmyf : wAll s my w = false := by
          cases hx : wAll s my w with
          | false => rfl
          | true => exact absurd hx hmy
        have hoppf : wAll s opp w = false := by
          cases hx : wAll s opp w with
          | false => rfl
          | true => exact absurd hx hopp
        simp only [firstIdxAux, hmyf, hoppf, Bool.false_eq_true, if_false] at hi hj
        obtain ⟨i2, hi2, rfl⟩ := Option.map_eq_some'.mp hi
        obtain ⟨j2, hj2, rfl⟩ := Option.map_eq_some'.mp hj
        obtain ⟨hij, hscan⟩ := ih (fun x hx => hnon x (List.mem_cons_of_mem w hx)) hi2 hj2
        refine ⟨by omega, ?_⟩
        have hiff : (i2 + 1 < j2 + 1) = (i2 < j2) := by
          simp only [eq_iff_iff]
          omega
        simp [scanChecks, winCheckLine, hmyf, hoppf, hscan, hiff]

theorem firstIdxAux_isSome {p : List (Nat × Nat) → Bool} :
    ∀ {l : List (List (Nat × Nat))}, (∃ w ∈ l, p w = true) →
      ∃ i, firstIdxAux p l = some i := by
  intro l
  induction l with
  | nil =>
    rintro ⟨w, hw, _⟩
    simp at hw
  | cons w ws ih =>
    rintro ⟨w2, hw2, hp2⟩
    by_cases hw : p w = true
    · exact ⟨0, by simp [firstIdxAux, hw]⟩
    · rcases List.mem_cons.mp hw2 with rfl | hmem
      · exact absurd hp2 hw
      · obtain ⟨i, hi⟩ := ih ⟨w2, hmem, hp2⟩
        refine ⟨i + 1, ?_⟩
        have hwf : p w = false := by
          cases hx : p w with
          | false => rfl
          | true => exact absurd hx hw
        simp [firstIdxAux, hwf, hi]

theorem spec_sub_windows : ∀ w ∈ specWindows, w ∈ lineWindows ++ squareWindows := by decide

theorem winIdx_isSome_of_specWin {s : Board} {p : Cell} (h : specWin s p) :
    ∃ i, winIdx s p = some i := by
  obtain ⟨w, hw, hall⟩ := h
  apply firstIdxAux_isSome
  refine ⟨w, spec_sub_windows w hw, ?_⟩
  simp only [wAll, List.all_eq_true, decide_eq_true_eq]
  exact hall

theorem game_value_scanAll {s : Board} {my : Cell} (hmy : my = Cell.black ∨ my = Cell.red) :
    game_value s my =
      (match scanChecks (winCheckLine s my (oppOf my)) (lineWindows ++ squareWindows) with
       | some v => v
       | none => 0) := by
  have hp : (my = Cell.black ∧ oppOf my = Cell.red) ∨
      (my = Cell.red ∧ oppOf my = Cell.black) := by
    rcases hmy with rfl | rfl
    · exact Or.inl ⟨rfl, by decide⟩
    · exact Or.inr ⟨rfl, by decide⟩
  have hgv : game_value s my =
      (match scanChecks (winCheckLine s my (oppOf my)) lineWindows with
       | some v => v
       | none =>
         match scanChecks (winCheckSquare s my (oppOf my)) squareWindows with
         | some v => v
         | none => 0) := rfl
  rw [hgv, scanChecks_append,
    scanChecks_congr (fun w hw => winCheckSquare_eq_line hp w hw)]
  cases scanChecks (winCheckLine s my (oppOf my)) lineWindows <;> rfl

/-- C3 amended: when both self and the opponent have completed winning shapes,
`game_value` is never 0, but it returns +1 only when self's earliest winning
window strictly precedes the opponent's earliest winning window in the fixed
scan order (rows, columns, down-right diagonals, down-left diagonals, then
2×2 squares; self before opponent within one window, so the two indices are
never equal) — not unconditionally +1. -/
theorem game_value_dual_win (s : Board) (my : Cell)
    (hmy : my = Cell.black ∨ my = Cell.red)
    (hws : specWin s my) (hwo : specWin s (oppOf my)) :
    ∃ i j, winIdx s my = some i ∧ winIdx s (oppOf my) = some j ∧ i ≠ j ∧
      (game_value s my = 1 ∨ game_value s my = -1) ∧
      game_value s my = (if i < j then 1 else -1) := by
  obtain ⟨i, hi⟩ := winIdx_isSome_of_specWin hws
  obtain ⟨j, hj⟩ := winIdx_isSome_of_specWin hwo
  have hne : my ≠ oppOf my := by rcases hmy with rfl | rfl <;> decide
  have hnon : ∀ w ∈ lineWindows ++ squareWindows, w ≠ [] := by decide
  have hi2 : firstIdxAux (fun w => wAll s my w) (lineWindows ++ squareWindows) = some i := hi
  have hj2 : firstIdxAux (fun w => wAll s (oppOf my) w) (lineWindows ++ squareWindows) =
      some j := hj
  obtain ⟨hij, hscan⟩ := scan_firstIdx hne (lineWindows ++ squareWindows) hnon hi2 hj2
  have hg := game_value_scanAll (s := s) hmy
  rw [hscan] at hg
  refine ⟨i, j, hi, hj, hij, ?_, hg⟩
  rw [hg]
  split_ifs <;> simp

/-- Witness for `game_value_dual_win`: a dual-win board where black's row-0
window precedes red's row-4 window. -/
theorem game_value_dual_win_witness :
    ∃ i j, winIdx dualWinBoard2 Cell.black = some i ∧
      winIdx dualWinBoard2 (oppOf Cell.black) = some j ∧ i ≠ j ∧
      (game_value dualWinBoard2 Cell.black = 1 ∨ game_value dualWinBoard2 Cell.black = -1) ∧
      game_value dualWinBoard2 Cell.black = (if i < j then 1 else -1) :=
  game_value_dual_win dualWinBoard2 Cell.black (Or.inl rfl) (by decide) (by decide)

theorem filterMap_ite_eq_map_filter {α β : Type _} (p : α → Prop) [DecidablePred p]
    (g : α → β) :
    ∀ l : List α,
      (l.filterMap fun a => if p a then some (g a) else none) =
        (l.filter fun a => decide (p a)).map g := by
  intro l
  induction l with
  | nil => rfl
  | cons a l ih => by_cases hp : p a <;> simp [hp, ih]

theorem length_filterMap_countP {α β : Type _} (f : α → Option β) :
    ∀ l : List α, (l.filterMap f).length = l.countP (fun a => (f a).isSome) := by
  intro l
  induction l with
  | nil => rfl
  | cons a l ih =>
    cases hf : f a <;> simp [List.filterMap_cons, hf, List.countP_cons, ih]

theorem countP_filterMap_eq {α β : Type _} (f : α → Option β) (p : β → Bool) :
    ∀ l : List α,
      (l.filterMap f).countP p = l.countP (fun a => ((f a).map p).getD false) := by
  intro l
  induction l with
  | nil => rfl
  | cons a l ih =>
    cases hf : f a <;> simp [List.filterMap_cons, hf, List.countP_cons, ih]

theorem sum_map_filter_eq {α : Type _} (q : α → Bool) (f : α → Nat) :
    ∀ l : List α,
      ((l.filter q).map f).sum = (l.map fun a => if q a then f a else 0).sum := by
  intro l
  induction l with
  | nil => rfl
  | cons a l ih => cases hq : q a <;> simp [List.filter_cons, hq, ih]

theorem neigh_perm : ∀ a ∈ cells25,
    List.Perm
      (directions.filterMap (fun d : Int × Int =>
        if 0 ≤ (a.1 : Int) + d.1 ∧ (a.1 : Int) + d.1 < 5 ∧ 0 ≤ (a.2 : Int) + d.2 ∧
            (a.2 : Int) + d.2 < 5 then
          some ((((a.1 : Int) + d.1).toNat, ((a.2 : Int) + d.2).toNat) : Nat × Nat)
        else none))
      (cells25.filter fun b => decide (chebAdj a b)) := by decide

theorem dirs_adj : ∀ a ∈ cells25, ∀ d ∈ directions,
    (0 ≤ (a.1 : Int) + d.1 ∧ (a.1 : Int) + d.1 < 5 ∧ 0 ≤ (a.2 : Int) + d.2 ∧
      (a.2 : Int) + d.2 < 5) →
    chebAdj a (((a.1 : Int) + d.1).toNat, ((a.2 : Int) + d.2).toNat) ∧
      ((((a.1 : Int) + d.1).toNat, ((a.2 : Int) + d.2).toNat) : Nat × Nat) ∈ cells25 := by
  decide

theorem per_cell_move_count (s : Board) (my : Cell) (a : Nat × Nat) (ha : a ∈ cells25) :
    (directions.filterMap (fun d : Int × Int =>
      if 0 ≤ (a.1 : Int) + d.1 ∧ (a.1 : Int) + d.1 < 5 ∧ 0 ≤ (a.2 : Int) + d.2 ∧
          (a.2 : Int) + d.2 < 5 ∧
          cell s ((a.1 : Int) + d.1).toNat ((a.2 : Int) + d.2).toNat = Cell.empty then
        some (setCell (setCell s ((a.1 : Int) + d.1).toNat ((a.2 : Int) + d.2).toNat my)
          a.1 a.2 Cell.empty)
      else none)).length =
    (cells25.filter fun b =>
      decide (chebAdj a b) && decide (cell s b.1 b.2 = Cell.empty)).length := by
  rw [length_filterMap_countP]
  have hA : directions.countP (fun d : Int × Int =>
        ((if 0 ≤ (a.1 : Int) + d.1 ∧ (a.1 : Int) + d.1 < 5 ∧ 0 ≤ (a.2 : Int) + d.2 ∧
            (a.2 : Int) + d.2 < 5 ∧
            cell s ((a.1 : Int) + d.1).toNat ((a.2 : Int) + d.2).toNat = Cell.empty then
          some (setCell (setCell s ((a.1 : Int) + d.1).toNat ((a.2 : Int) + d.2).toNat my)
            a.1 a.2 Cell.empty)
        else none)).isSome) =
      directions.countP (fun d : Int × Int =>
        (((if 0 ≤ (a.1 : Int) + d.1 ∧ (a.1 : Int) + d.1 < 5 ∧ 0 ≤ (a.2 : Int) + d.2 ∧
            (a.2 : Int) + d.2 < 5 then
          some ((((a.1 : Int) + d.1).toNat, ((a.2 : Int) + d.2).toNat) : Nat × Nat)
        else none).map (fun b : Nat × Nat =>
          decide (cell s b.1 b.2 = Cell.empty))).getD false)) := by
    apply List.countP_congr
    intro d _
    by_cases hb : 0 ≤ (a.1 : Int) + d.1 ∧ (a.1 : Int) + d.1 < 5 ∧ 0 ≤ (a.2 : Int) + d.2 ∧
        (a.2 : Int) + d.2 < 5
    · obtain ⟨hb1, hb2, hb3, hb4⟩ := hb
      by_cases he : cell s ((a.1 : Int) + d.1).toNat ((a.2 : Int) + d.2).toNat = Cell.empty <;>
        simp [hb1, hb2, hb3, hb4, he]
    · have hbig : ¬(0 ≤ (a.1 : Int) + d.1 ∧ (a.1 : Int) + d.1 < 5 ∧ 0 ≤ (a.2 : Int) + d.2 ∧
          (a.2 : Int) + d.2 < 5 ∧
          cell s ((a.1 : Int) + d.1).toNat ((a.2 : Int) + d.2).toNat = Cell.empty) := by
        intro hc
        exact hb ⟨hc.1, hc.2.1, hc.2.2.1, hc.2.2.2.1⟩
      simp [hb, hbig]
  rw [hA, ← countP_filterMap_eq, List.Perm.countP_eq _ (neigh_perm a ha),
    List.countP_filter]
  rw [List.countP_eq_length_filter]
  apply congrArg List.length
  apply List.filter_congr
  intro b _
  exact Bool.and_comm _ _

/-- C5: in the drop phase (fewer than 8 pieces) `succ` produces exactly one
successor per empty cell, in row-major order; otherwise it produces exactly
one successor per (mover-piece cell, in-bounds empty neighbour at Chebyshev
distance 1) pair, and every move-phase successor arises from such an
in-bounds pair (so a corner piece generates no out-of-bounds or wrap-around
successor). -/
theorem succ_spec (s : Board) (my : Cell) :
    (countPieces s < 8 →
      succ s my = (cells25.filter fun c => decide (cell s c.1 c.2 = Cell.empty)).map
        (fun c => setCell s c.1 c.2 my)) ∧
    (¬(countPieces s < 8) → (succ s my).length = movePairCount s my) ∧
    (¬(countPieces s < 8) → ∀ t ∈ succ s my, ∃ pr ∈ movePairs s my,
      t = setCell (setCell s pr.2.1 pr.2.2 my) pr.1.1 pr.1.2 Cell.empty) := by
  refine ⟨fun h8 => ?_, fun h8 => ?_, fun h8 => ?_⟩
  · unfold succ
    rw [if_pos h8]
    exact filterMap_ite_eq_map_filter _ _ _
  · have hsucc : succ s my =
        (cells25.filter fun c => decide (cell s c.1 c.2 = my)).flatMap (fun a =>
          directions.filterMap (fun d : Int × Int =>
            if 0 ≤ (a.1 : Int) + d.1 ∧ (a.1 : Int) + d.1 < 5 ∧ 0 ≤ (a.2 : Int) + d.2 ∧
                (a.2 : Int) + d.2 < 5 ∧
                cell s ((a.1 : Int) + d.1).toNat ((a.2 : Int) + d.2).toNat = Cell.empty then
              some (setCell
                (setCell s ((a.1 : Int) + d.1).toNat ((a.2 : Int) + d.2).toNat my)
                a.1 a.2 Cell.empty)
            else none)) := by
      unfold succ
      rw [if_neg h8]
    rw [hsucc, List.length_flatMap]
    unfold movePairCount movePairs
    rw [List.filter_flatMap, List.length_flatMap]
    rw [sum_map_filter_eq]
    apply congrArg List.sum
    apply List.map_congr_left
    intro a ha
    by_cases hm : cell s a.1 a.2 = my
    · rw [if_pos (by simpa using hm)]
      have hR : (List.filter
            (fun p : (Nat × Nat) × (Nat × Nat) =>
              decide (cell s p.1.1 p.1.2 = my) && decide (cell s p.2.1 p.2.2 = Cell.empty) &&
                decide (chebAdj p.1 p.2))
            (List.map (fun b => (a, b)) cells25)).length =
          (cells25.filter fun b =>
            decide (chebAdj a b) && decide (cell s b.1 b.2 = Cell.empty)).length := by
        rw [List.filter_map, List.length_map, ← List.countP_eq_length_filter,
          ← List.countP_eq_length_filter]
        apply List.countP_congr
        intro b _
        simp only [Function.comp_apply, Bool.and_eq_true, decide_eq_true_eq]
        constructor
        · rintro ⟨⟨_, he⟩, hadj⟩
          exact ⟨hadj, he⟩
        · rintro ⟨hadj, he⟩
          exact ⟨⟨hm, he⟩, hadj⟩
      simp only [Function.comp_apply]
      rw [hR]
      exact per_cell_move_count s my a ha
    · rw [if_neg (by simpa using hm)]
      symm
      simp only [Function.comp_apply]
      rw [List.filter_map, List.length_map, List.length_eq_zero, List.filter_eq_nil_iff]
      intro b _
      simp only [Function.comp_apply, Bool.and_eq_true, decide_eq_true_eq]
      exact fun hcon => hm hcon.1.1
  · intro t ht
    have hsucc : succ s my =
        (cells25.filter fun c => decide (cell s c.1 c.2 = my)).flatMap (fun a =>
          directions.filterMap (fun d : Int × Int =>
            if 0 ≤ (a.1 : Int) + d.1 ∧ (a.1 : Int) + d.1 < 5 ∧ 0 ≤ (a.2 : Int) + d.2 ∧
                (a.2 : Int) + d.2 < 5 ∧
                cell s ((a.1 : Int) + d.1).toNat ((a.2 : Int) + d.2).toNat = Cell.empty then
              some (setCell
                (setCell s ((a.1 : Int) + d.1).toNat ((a.2 : Int) + d.2).toNat my)
                a.1 a.2 Cell.empty)
            else none)) := by
      unfold succ
      rw [if_neg h8]
    rw [hsucc, List.mem_flatMap] at ht
    obtain ⟨a, ha, ht⟩ := ht
    rw [List.mem_filter] at ha
    rw [List.mem_filterMap] at ht
    obtain ⟨d, hd, hfd⟩ := ht
    by_cases hc : 0 ≤ (a.1 : Int) + d.1 ∧ (a.1 : Int) + d.1 < 5 ∧ 0 ≤ (a.2 : Int) + d.2 ∧
        (a.2 : Int) + d.2 < 5 ∧
        cell s ((a.1 : Int) + d.1).toNat ((a.2 : Int) + d.2).toNat = Cell.empty
    · rw [if_pos hc] at hfd
      obtain ⟨hadj, hnb⟩ := dirs_adj a ha.1 d hd ⟨hc.1, hc.2.1, hc.2.2.1, hc.2.2.2.1⟩
      refine ⟨(a, (((a.1 : Int) + d.1).toNat, ((a.2 : Int) + d.2).toNat)), ?_, ?_⟩
      · unfold movePairs
        rw [List.mem_filter]
        constructor
        · rw [List.mem_flatMap]
          exact ⟨a, ha.1, List.mem_map.mpr ⟨_, hnb, rfl⟩⟩
        · simp only [Bool.and_eq_true, decide_eq_true_eq]
          exact ⟨⟨by simpa using ha.2, hc.2.2.2.2⟩, hadj⟩
      · exact (Option.some_inj.mp hfd).symm
    · rw [if_neg hc] at hfd
      cases hfd

/-- Witness for `succ_spec`: the drop-branch equality on the empty board and
the move-branch count and membership characterization on a concrete 8-piece
board. -/
theorem succ_spec_witness :
    (succ bEmpty Cell.black =
      (cells25.filter fun c => decide (cell bEmpty c.1 c.2 = Cell.empty)).map
        (fun c => setCell bEmpty c.1 c.2 Cell.black)) ∧
    (succ bMove Cell.black).length = movePairCount bMove Cell.black ∧
    (∃ pr ∈ movePairs bMove Cell.black,
      setCell (setCell bMove 0 1 Cell.black) 0 0 Cell.empty =
        setCell (setCell bMove pr.2.1 pr.2.2 Cell.black) pr.1.1 pr.1.2 Cell.empty) :=
  ⟨(succ_spec bEmpty Cell.black).1 (by decide),
   (succ_spec bMove Cell.black).2.1 (by decide),
   (succ_spec bMove Cell.black).2.2 (by decide)
     (setCell (setCell bMove 0 1 Cell.black) 0 0 Cell.empty) (by decide)⟩

theorem mem_cells25 {c : Nat × Nat} : c ∈ cells25 ↔ c.1 < 5 ∧ c.2 < 5 := by
  rcases c with ⟨a, b⟩
  simp only [cells25, List.mem_flatMap, List.mem_map, List.mem_range]
  constructor
  · rintro ⟨i, hi, j, hj, he⟩
    injection he with h1 h2
    subst h1
    subst h2
    exact ⟨hi, hj⟩
  · rintro ⟨ha, hb⟩
    exact ⟨a, ha, b, hb, rfl⟩

theorem cell_setCell_eq (s : Board) {i j : Nat} (hi : i < 5) (hj : j < 5) (v : Cell) :
    cell (setCell s i j v) i j = v := by
  simp [cell, setCell, hi, hj]

theorem cell_setCell_ne (s : Board) {i j i2 j2 : Nat} (v : Cell)
    (hne : ¬(i2 = i ∧ j2 = j)) :
    cell (setCell s i j v) i2 j2 = cell s i2 j2 := by
  unfold cell setCell
  split_ifs with h
  · simp [hne]
  · rfl

theorem setCell_comm (s : Board) {i1 j1 i2 j2 : Nat} (v1 v2 : Cell)
    (hne : ¬(i1 = i2 ∧ j1 = j2)) :
    setCell (setCell s i1 j1 v1) i2 j2 v2 = setCell (setCell s i2 j2 v2) i1 j1 v1 := by
  funext a b
  simp only [setCell]
  by_cases h2 : a.val = i2 ∧ b.val = j2
  · rw [if_pos h2]
    by_cases h1 : a.val = i1 ∧ b.val = j1
    · exact absurd ⟨h1.1.symm.trans h2.1, h1.2.symm.trans h2.2⟩ hne
    · rw [if_neg h1, if_pos h2]
  · rw [if_neg h2]
    by_cases h1 : a.val = i1 ∧ b.val = j1
    · rw [if_pos h1, if_pos h1]
    · rw [if_neg h1, if_neg h1, if_neg h2]

theorem find?_unique {α : Type _} {p : α → Bool} {x : α} :
    ∀ {l : List α}, x ∈ l → (∀ y ∈ l, p y = true ↔ y = x) → l.find? p = some x := by
  intro l
  induction l with
  | nil => intro h _; simp at h
  | cons a l ih =>
    intro hx hp
    by_cases ha : p a = true
    · have hax : a = x := (hp a (List.mem_cons_self a l)).mp ha
      subst hax
      exact List.find?_cons_of_pos l ha
    · have hax : a ≠ x := fun he => ha ((hp a (List.mem_cons_self a l)).mpr he)
      rcases List.mem_cons.mp hx with rfl | hmem
      · exact absurd rfl hax
      · rw [List.find?_cons_of_neg l (by simpa using ha)]
        exact ih hmem (fun y hy => hp y (List.mem_cons_of_mem a hy))

theorem findMoveAux_run (s best : Board) (my : Cell) (dst src : Nat × Nat)
    (hds : dst ≠ src) :
    ∀ (l : List (Nat × Nat)) (d0 s0 : Option (Nat × Nat)),
    (∀ c ∈ l, (cell s c.1 c.2 = Cell.empty ∧ cell best c.1 c.2 = my) ↔ c = dst) →
    (∀ c ∈ l, (cell s c.1 c.2 = my ∧ cell best c.1 c.2 = Cell.empty) ↔ c = src) →
    (d0 = none ∨ d0 = some dst) →
    (s0 = none ∨ s0 = some src) →
    ¬(d0.isSome = true ∧ s0.isSome = true) →
    (d0 = some dst ∨ dst ∈ l) →
    (s0 = some src ∨ src ∈ l) →
    findMoveAux s best my l d0 s0 = (some dst, some src) := by
  intro l
  induction l with
  | nil =>
    intro d0 s0 _ _ hd0 hs0 hboth hdl hsl
    rcases hdl with hd | hd
    · rcases hsl with hs | hs
      · exact absurd ⟨by simp [hd], by simp [hs]⟩ hboth
      · simp at hs
    · simp at hd
  | cons c l ih =>
    intro d0 s0 hdP hsP hd0 hs0 hboth hdl hsl
    have hdPc := hdP c (List.mem_cons_self c l)
    have hsPc := hsP c (List.mem_cons_self c l)
    have hdP' := fun y hy => hdP y (List.mem_cons_of_mem c hy)
    have hsP' := fun y hy => hsP y (List.mem_cons_of_mem c hy)
    simp only [findMoveAux]
    by_cases hcd : cell s c.1 c.2 = Cell.empty ∧ cell best c.1 c.2 = my
    · have hceq : c = dst := hdPc.mp hcd
      subst hceq
      have hcs : ¬(cell s c.1 c.2 = my ∧ cell best c.1 c.2 = Cell.empty) := by
        intro hx
        exact hds (hsPc.mp hx)
      rw [if_pos hcd, if_neg hcs]
      rcases hs0 with rfl | rfl
      · rw [if_neg (by simp)]
        refine ih (some c) none hdP' hsP' (Or.inr rfl) (Or.inl rfl) (by simp) (Or.inl rfl) ?_
        rcases hsl with hs | hs
        · simp at hs
        · rcases List.mem_cons.mp hs with rfl | hmem
          · exact absurd rfl hds
          · exact Or.inr hmem
      · rw [if_pos (by simp)]
    · by_cases hcs : cell s c.1 c.2 = my ∧ cell best c.1 c.2 = Cell.empty
      · have hceq : c = src := hsPc.mp hcs
        subst hceq
        rw [if_neg hcd, if_pos hcs]
        rcases hd0 with rfl | rfl
        · rw [if_neg (by simp)]
          refine ih none (some c) hdP' hsP' (Or.inl rfl) (Or.inr rfl) (by simp) ?_ (Or.inl rfl)
          rcases hdl with hd | hd
          · simp at hd
          · rcases List.mem_cons.mp hd with rfl | hmem
            · exact absurd rfl hds
            · exact Or.inr hmem
        · rw [if_pos (by simp)]
      · rw [if_neg hcd, if_neg hcs]
        have hcne_d : c ≠ dst := fun he => hcd (hdPc.mpr he)
        have hcne_s : c ≠ src := fun he => hcs (hsPc.mpr he)
        rw [if_neg hboth]
        refine ih d0 s0 hdP' hsP' hd0 hs0 hboth ?_ ?_
        · rcases hdl with hd | hd
          · exact Or.inl hd
          · rcases List.mem_cons.mp hd with rfl | hmem
            · exact absurd rfl hcne_d
            · exact Or.inr hmem
        · rcases hsl with hs | hs
          · exact Or.inl hs
          · rcases List.mem_cons.mp hs with rfl | hmem
            · exact absurd rfl hcne_s
            · exact Or.inr hmem

/-- C8: applying the move produced by the translation step of `make_move` to
the original state via `place_piece` reproduces the chosen successor exactly:
for a legal drop (one empty cell filled with self's piece, fewer than 8
pieces) and for a legal one-step relocation (source holds self's piece,
destination empty and Chebyshev-adjacent) alike. -/
theorem translate_place_roundtrip (s chosen : Board) (my : Cell)
    (hmy : my = Cell.black ∨ my = Cell.red) :
    (countPieces s < 8 →
      ∀ i j : Nat, i < 5 → j < 5 → cell s i j = Cell.empty →
        chosen = setCell s i j my →
        place_piece s (translateMove s chosen my) my = chosen) ∧
    (¬(countPieces s < 8) →
      ∀ src dst : Nat × Nat, src.1 < 5 → src.2 < 5 → dst.1 < 5 → dst.2 < 5 →
        cell s src.1 src.2 = my → cell s dst.1 dst.2 = Cell.empty → chebAdj src dst →
        chosen = setCell (setCell s dst.1 dst.2 my) src.1 src.2 Cell.empty →
        place_piece s (translateMove s chosen my) my = chosen) := by
  have hmyne : my ≠ Cell.empty := by rcases hmy with rfl | rfl <;> decide
  constructor
  · intro h8 i j hi hj hcell hch
    subst hch
    have hdiff : ∀ c ∈ cells25,
        (decide (cell s c.1 c.2 ≠ cell (setCell s i j my) c.1 c.2)) = true ↔ c = (i, j) := by
      intro c _
      simp only [decide_eq_true_eq]
      constructor
      · intro hne
        by_contra hcne
        have hcomp : ¬(c.1 = i ∧ c.2 = j) := by
          rintro ⟨e1, e2⟩
          exact hcne (Prod.ext_iff.mpr ⟨e1, e2⟩)
        exact hne (cell_setCell_ne s my hcomp).symm
      · rintro rfl
        rw [cell_setCell_eq s hi hj, hcell]
        intro he
        exact hmyne he.symm
    have hfind : cells25.find?
        (fun c => decide (cell s c.1 c.2 ≠ cell (setCell s i j my) c.1 c.2)) = some (i, j) :=
      find?_unique (mem_cells25.mpr ⟨hi, hj⟩) hdiff
    unfold translateMove
    rw [if_pos h8, hfind]
    rfl
  · intro h8 src dst hs1 hs2 hd1 hd2 hsrc hdst hadj hch
    have hne_sd : src ≠ dst := by
      intro he
      rw [he] at hsrc
      rw [hsrc] at hdst
      exact hmyne hdst
    have hchdst : cell chosen dst.1 dst.2 = my := by
      rw [hch, cell_setCell_ne _ _ (fun hc => hne_sd (Prod.ext_iff.mpr ⟨hc.1.symm, hc.2.symm⟩))]
      exact cell_setCell_eq s hd1 hd2 my
    have hchsrc : cell chosen src.1 src.2 = Cell.empty := by
      rw [hch]
      exact cell_setCell_eq _ hs1 hs2 _
    have hchother : ∀ c : Nat × Nat, ¬(c = dst) → ¬(c = src) →
        cell chosen c.1 c.2 = cell s c.1 c.2 := by
      intro c hcd hcs
      rw [hch, cell_setCell_ne _ _ (fun hc => hcs (Prod.ext_iff.mpr hc)),
        cell_setCell_ne _ _ (fun hc => hcd (Prod.ext_iff.mpr hc))]
    have hdstP : ∀ c ∈ cells25,
        (cell s c.1 c.2 = Cell.empty ∧ cell chosen c.1 c.2 = my) ↔ c = dst := by
      intro c _
      constructor
      · rintro ⟨h1, h2⟩
        by_contra hcd
        by_cases hcs : c = src
        · subst hcs
          rw [hsrc] at h1
          exact hmyne h1
        · rw [hchother c hcd hcs] at h2
          rw [h1] at h2
          exact hmyne h2.symm
      · rintro rfl
        exact ⟨hdst, hchdst⟩
    have hsrcP : ∀ c ∈ cells25,
        (cell s c.1 c.2 = my ∧ cell chosen c.1 c.2 = Cell.empty) ↔ c = src := by
      intro c _
      constructor
      · rintro ⟨h1, h2⟩
        by_contra hcs
        by_cases hcd : c = dst
        · subst hcd
          rw [hdst] at h1
          exact hmyne h1.symm
        · rw [hchother c hcd hcs] at h2
          rw [h1] at h2
          exact hmyne h2
      · rintro rfl
        exact ⟨hsrc, hchsrc⟩
    have hrun := findMoveAux_run s chosen my dst src (Ne.symm hne_sd) cells25 none none
      hdstP hsrcP (Or.inl rfl) (Or.inl rfl) (by simp)
      (Or.inr (mem_cells25.mpr ⟨hd1, hd2⟩)) (Or.inr (mem_cells25.mpr ⟨hs1, hs2⟩))
    unfold translateMove
    rw [if_neg h8, hrun]
    simp only [place_piece]
    rw [hch]
    exact setCell_comm s Cell.empty my (fun hc => hne_sd (Prod.ext_iff.mpr hc))

/-- Witness for `translate_place_roundtrip`: a concrete drop on a 5-piece
board and a concrete relocation on an 8-piece board. -/
theorem translate_place_roundtrip_witness :
    place_piece bFive (translateMove bFive (setCell bFive 1 1 Cell.black) Cell.black)
      Cell.black = setCell bFive 1 1 Cell.black ∧
    place_piece bMove
      (translateMove bMove (setCell (setCell bMove 1 1 Cell.black) 0 0 Cell.empty) Cell.black)
      Cell.black = setCell (setCell bMove 1 1 Cell.black) 0 0 Cell.empty :=
  ⟨(translate_place_roundtrip bFive (setCell bFive 1 1 Cell.black) Cell.black
      (Or.inl rfl)).1 (by decide) 1 1 (by decide) (by decide) (by decide) rfl,
   (translate_place_roundtrip bMove (setCell (setCell bMove 1 1 Cell.black) 0 0 Cell.empty)
      Cell.black (Or.inl rfl)).2 (by decide) (0, 0) (1, 1) (by decide) (by decide)
      (by decide) (by decide) (by decide) (by decide) (by decide) rfl⟩

theorem bot_lt_vq (q : ℚ) : (⊥ : V) < vq q := WithBot.bot_lt_coe _

theorem vq_lt_top (q : ℚ) : vq q < ⊤ := by
  rw [← WithBot.coe_top]
  exact WithBot.coe_lt_coe.mpr (WithTop.coe_lt_top q)

theorem fsRel_refl (v a b : V) : fsRel v v a b :=
  ⟨fun h => ⟨h, le_refl v⟩, fun h => ⟨h, le_refl v⟩, fun _ _ => rfl⟩

theorem le_foldMaxV (g : Board → V) :
    ∀ (l : List Board) (base : V), base ≤ foldMaxV g base l := by
  intro l
  induction l with
  | nil => intro base; exact le_refl base
  | cons c l ih =>
    intro base
    exact le_trans (le_max_left base (g c)) (ih (max base (g c)))

theorem foldMaxV_mono (g : Board → V) :
    ∀ (l : List Board) {b1 b2 : V}, b1 ≤ b2 → foldMaxV g b1 l ≤ foldMaxV g b2 l := by
  intro l
  induction l with
  | nil => intro b1 b2 h; exact h
  | cons c l ih =>
    intro b1 b2 h
    exact ih (max_le_max h (le_refl (g c)))

theorem foldMaxV_absorb (g : Board → V) :
    ∀ (l : List Board) (x y : V),
      foldMaxV g (max x y) l = max x (foldMaxV g y l) := by
  intro l
  induction l with
  | nil => intro x y; rfl
  | cons c l ih =>
    intro x y
    simp only [foldMaxV, List.foldl_cons] at ih ⊢
    rw [max_assoc]
    exact ih x (max y (g c))

theorem foldMinV_le (g : Board → V) :
    ∀ (l : List Board) (base : V), foldMinV g base l ≤ base := by
  intro l
  induction l with
  | nil => intro base; exact le_refl base
  | cons c l ih =>
    intro base
    exact le_trans (ih (min base (g c))) (min_le_left base (g c))

theorem foldMinV_mono (g : Board → V) :
    ∀ (l : List Board) {b1 b2 : V}, b1 ≤ b2 → foldMinV g b1 l ≤ foldMinV g b2 l := by
  intro l
  induction l with
  | nil => intro b1 b2 h; exact h
  | cons c l ih =>
    intro b1 b2 h
    exact ih (min_le_min h (le_refl (g c)))

theorem foldMinV_absorb (g : Board → V) :
    ∀ (l : List Board) (x y : V),
      foldMinV g (min x y) l = min x (foldMinV g y l) := by
  intro l
  induction l with
  | nil => intro x y; rfl
  | cons c l ih =>
    intro x y
    simp only [foldMinV, List.foldl_cons] at ih ⊢
    rw [min_assoc]
    exact ih x (min y (g c))

theorem fullMax_fst (g : Board → V) :
    ∀ (l : List Board) (best : V) (bs : Option Board),
      (fullMax g l best bs).1 = foldMaxV g best l := by
  intro l
  induction l with
  | nil => intro best bs; rfl
  | cons c l ih =>
    intro best bs
    simp only [fullMax, foldMaxV, List.foldl_cons]
    by_cases hlt : best < g c
    · rw [if_pos hlt, ih]
      simp only [foldMaxV]
      rw [max_eq_right (le_of_lt hlt)]
    · rw [if_neg hlt, ih]
      simp only [foldMaxV]
      rw [max_eq_left (le_of_not_lt hlt)]

theorem fullMin_fst (g : Board → V) :
    ∀ (l : List Board) (best : V) (bs : Option Board),
      (fullMin g l best bs).1 = foldMinV g best l := by
  intro l
  induction l with
  | nil => intro best bs; rfl
  | cons c l ih =>
    intro c2 bs
    simp only [fullMin, foldMinV, List.foldl_cons]
    by_cases hlt : g c < c2
    · rw [if_pos hlt, ih]
      simp only [foldMinV]
      rw [min_eq_right (le_of_lt hlt)]
    · rw [if_neg hlt, ih]
      simp only [foldMinV]
      rw [min_eq_left (le_of_not_lt hlt)]

theorem foldMaxV_cons (g : Board → V) (base : V) (c : Board) (l : List Board) :
    foldMaxV g base (c :: l) = foldMaxV g (max base (g c)) l := rfl

theorem foldMinV_cons (g : Board → V) (base : V) (c : Board) (l : List Board) :
    foldMinV g base (c :: l) = foldMinV g (min base (g c)) l := rfl

theorem maxLoop_failsoft (f : Board → V → V) (g : Board → V) (b : V) :
    ∀ (l : List Board) (a best : V) (bs : Option Board),
      best ≤ a → a < b →
      (∀ c ∈ l, ∀ a2 : V, a2 < b → fsRel (f c a2) (g c) a2 b) →
      fsRel ((maxLoop f b l a best bs).1) (foldMaxV g best l) a b := by
  intro l
  induction l with
  | nil => intro a best bs _ _ _; exact fsRel_refl best a b
  | cons c l ih =>
    intro a best bs hba hab hf
    have hfc := hf c (List.mem_cons_self c l) a hab
    have hf' := fun c2 hc2 => hf c2 (List.mem_cons_of_mem c hc2)
    rw [foldMaxV_cons]
    simp only [maxLoop]
    rcases le_or_lt (g c) a with hga | hga
    · -- the child's exhaustive value fails low: no useful update
      obtain ⟨hva, hgv⟩ := hfc.1 hga
      obtain ⟨bv, hbv_eq, hbv_le, hbv_ge⟩ :
          ∃ bv, (if best < f c a then f c a else best) = bv ∧ bv ≤ a ∧
            max best (g c) ≤ bv := by
        by_cases hlt : best < f c a
        · exact ⟨f c a, if_pos hlt, hva, max_le (le_of_lt hlt) hgv⟩
        · exact ⟨best, if_neg hlt, hba,
            max_le (le_refl best) (le_trans hgv (le_of_not_lt hlt))⟩
      rw [hbv_eq, max_eq_left hbv_le, if_neg (not_le_of_lt hab)]
      have hrec := ih a bv (if best < f c a then some c else bs) hbv_le hab hf'
      have hMM' : foldMaxV g (max best (g c)) l ≤ foldMaxV g bv l :=
        foldMaxV_mono g l hbv_ge
      have hM'ub : foldMaxV g bv l ≤ max a (foldMaxV g (max best (g c)) l) := by
        have h1 : bv ≤ max a (max best (g c)) := le_trans hbv_le (le_max_left _ _)
        calc foldMaxV g bv l ≤ foldMaxV g (max a (max best (g c))) l :=
              foldMaxV_mono g l h1
          _ = max a (foldMaxV g (max best (g c)) l) := foldMaxV_absorb g l a _
      refine ⟨fun h => ?_, fun h => ?_, fun h1 h2 => ?_⟩
      · have hM'a : foldMaxV g bv l ≤ a := le_trans hM'ub (by rw [max_eq_left h])
        obtain ⟨hr, hMr⟩ := hrec.1 hM'a
        exact ⟨hr, le_trans hMM' hMr⟩
      · have hMeq : foldMaxV g bv l = foldMaxV g (max best (g c)) l := by
          apply le_antisymm
          · exact le_trans hM'ub
              (le_of_eq (max_eq_right (le_trans (le_of_lt hab) h)))
          · exact hMM'
        obtain ⟨hbr, hrM⟩ := hrec.2.1 (by rw [hMeq]; exact h)
        rw [hMeq] at hrM
        exact ⟨hbr, hrM⟩
      · have hMeq : foldMaxV g bv l = foldMaxV g (max best (g c)) l := by
          apply le_antisymm
          · exact le_trans hM'ub (le_of_eq (max_eq_right (le_of_lt h1)))
          · exact hMM'
        rw [hrec.2.2 (by rw [hMeq]; exact h1) (by rw [hMeq]; exact h2), hMeq]
    · rcases lt_or_le (g c) b with hgb | hgb
      · -- the child's exhaustive value lies inside the window: exact update
        have hveq : f c a = g c := hfc.2.2 hga hgb
        have hlt : best < f c a := by
          rw [hveq]
          exact lt_of_le_of_lt hba hga
        rw [if_pos hlt, if_pos hlt, hveq,
          max_eq_right (le_of_lt hga), if_neg (not_le_of_lt hgb),
          max_eq_right (le_trans hba (le_of_lt hga))]
        have hrec := ih (g c) (g c) (some c) (le_refl (g c)) hgb hf'
        have hgM : g c ≤ foldMaxV g (g c) l := le_foldMaxV g l (g c)
        refine ⟨fun h => ?_, fun h => hrec.2.1 h, fun h1 h2 => ?_⟩
        · exact absurd h (not_le_of_lt (lt_of_lt_of_le hga hgM))
        · rcases lt_or_le (g c) (foldMaxV g (g c) l) with hgcM | hgcM
          · exact hrec.2.2 hgcM h2
          · have hMgc : foldMaxV g (g c) l = g c := le_antisymm hgcM hgM
            obtain ⟨h1r, h2r⟩ := hrec.1 (le_of_eq hMgc)
            exact le_antisymm (by rw [hMgc]; exact h1r) h2r
      · -- the child's exhaustive value fails high: cutoff
        obtain ⟨hbv, hvg⟩ := hfc.2.1 hgb
        have hlt : best < f c a := lt_of_le_of_lt hba (lt_of_lt_of_le hab hbv)
        have hcut : b ≤ max a (if best < f c a then f c a else best) := by
          rw [if_pos hlt]
          exact le_trans hbv (le_max_right a _)
        rw [if_pos hcut, if_pos hlt]
        have hgM : g c ≤ foldMaxV g (max best (g c)) l :=
          le_trans (le_max_right best (g c)) (le_foldMaxV g l _)
        refine ⟨fun h => ?_, fun _ => ⟨hbv, le_trans hvg hgM⟩, fun _ h2 => ?_⟩
        · exact absurd h (not_le_of_lt (lt_of_lt_of_le hab (le_trans hgb hgM)))
        · exact absurd (le_trans hgb hgM) (not_le_of_lt h2)

theorem minLoop_failsoft (f : Board → V → V) (g : Board → V) (a : V) :
    ∀ (l : List Board) (b best : V) (bs : Option Board),
      b ≤ best → a < b →
      (∀ c ∈ l, ∀ b2 : V, a < b2 → fsRel (f c b2) (g c) a b2) →
      fsRel ((minLoop f a l b best bs).1) (foldMinV g best l) a b := by
  intro l
  induction l with
  | nil => intro b best bs _ _ _; exact fsRel_refl best a b
  | cons c l ih =>
    intro b best bs hbb hab hf
    have hfc := hf c (List.mem_cons_self c l) b hab
    have hf' := fun c2 hc2 => hf c2 (List.mem_cons_of_mem c hc2)
    rw [foldMinV_cons]
    simp only [minLoop]
    rcases le_or_lt b (g c) with hgb | hgb
    · -- the child's exhaustive value fails high: no useful update
      obtain ⟨hbv, hvg⟩ := hfc.2.1 hgb
      obtain ⟨bv, hbv_eq, hbv_ge, hbv_le⟩ :
          ∃ bv, (if f c b < best then f c b else best) = bv ∧ b ≤ bv ∧
            bv ≤ min best (g c) := by
        by_cases hlt : f c b < best
        · exact ⟨f c b, if_pos hlt, hbv, le_min (le_of_lt hlt) hvg⟩
        · exact ⟨best, if_neg hlt, hbb,
            le_min (le_refl best) (le_trans (le_of_not_lt hlt) hvg)⟩
      rw [hbv_eq, min_eq_left hbv_ge, if_neg (not_le_of_lt hab)]
      have hrec := ih b bv (if f c b < best then some c else bs) hbv_ge hab hf'
      have hMM' : foldMinV g bv l ≤ foldMinV g (min best (g c)) l :=
        foldMinV_mono g l hbv_le
      have hM'lb : min b (foldMinV g (min best (g c)) l) ≤ foldMinV g bv l := by
        have h1 : min b (min best (g c)) ≤ bv := le_trans (min_le_left _ _) hbv_ge
        calc min b (foldMinV g (min best (g c)) l)
            = foldMinV g (min b (min best (g c))) l := (foldMinV_absorb g l b _).symm
          _ ≤ foldMinV g bv l := foldMinV_mono g l h1
      refine ⟨fun h => ?_, fun h => ?_, fun h1 h2 => ?_⟩
      · have hMeq : foldMinV g bv l = foldMinV g (min best (g c)) l := by
          apply le_antisymm
          · exact hMM'
          · calc foldMinV g (min best (g c)) l
                = min b (foldMinV g (min best (g c)) l) :=
                  (min_eq_right (le_trans h (le_of_lt hab))).symm
              _ ≤ foldMinV g bv l := hM'lb
        obtain ⟨hr, hMr⟩ := hrec.1 (by rw [hMeq]; exact h)
        rw [hMeq] at hMr
        exact ⟨hr, hMr⟩
      · have hM'b : b ≤ foldMinV g bv l := by
          refine le_trans ?_ hM'lb
          rw [min_eq_left h]
        obtain ⟨hbr, hrM⟩ := hrec.2.1 hM'b
        exact ⟨hbr, le_trans hrM hMM'⟩
      · have hMeq : foldMinV g bv l = foldMinV g (min best (g c)) l := by
          apply le_antisymm
          · exact hMM'
          · calc foldMinV g (min best (g c)) l
                = min b (foldMinV g (min best (g c)) l) :=
                  (min_eq_right (le_of_lt h2)).symm
              _ ≤ foldMinV g bv l := hM'lb
        rw [hrec.2.2 (by rw [hMeq]; exact h1) (by rw [hMeq]; exact h2), hMeq]
    · rcases lt_or_le a (g c) with hga | hga
      · -- inside the window: exact update
        have hveq : f c b = g c := hfc.2.2 hga hgb
        have hlt : f c b < best := by
          rw [hveq]
          exact lt_of_lt_of_le hgb hbb
        rw [if_pos hlt, if_pos hlt, hveq,
          min_eq_right (le_of_lt hgb), if_neg (not_le_of_lt hga),
          min_eq_right (le_trans (le_of_lt hgb) hbb)]
        have hrec := ih (g c) (g c) (some c) (le_refl (g c)) hga hf'
        have hgM : foldMinV g (g c) l ≤ g c := foldMinV_le g l (g c)
        refine ⟨fun h => hrec.1 h, fun h => ?_, fun h1 h2 => ?_⟩
        · exact absurd h (not_le_of_lt (lt_of_le_of_lt hgM hgb))
        · rcases lt_or_le (foldMinV g (g c) l) (g c) with hgcM | hgcM
          · exact hrec.2.2 h1 hgcM
          · have hMgc : foldMinV g (g c) l = g c := le_antisymm hgM hgcM
            obtain ⟨h1r, h2r⟩ := hrec.2.1 (le_of_eq hMgc.symm)
            exact le_antisymm h2r (by rw [hMgc]; exact h1r)
      · -- fails low: cutoff
        obtain ⟨hva, hgv⟩ := hfc.1 hga
        have hlt : f c b < best := lt_of_le_of_lt hva (lt_of_lt_of_le hab hbb)
        have hcut : min b (if f c b < best then f c b else best) ≤ a := by
          rw [if_pos hlt]
          exact le_trans (min_le_right b _) hva
        rw [if_pos hcut, if_pos hlt]
        have hgM : foldMinV g (min best (g c)) l ≤ g c :=
          le_trans (foldMinV_le g l _) (min_le_right best (g c))
        refine ⟨fun _ => ⟨hva, le_trans hgM hgv⟩, fun h => ?_, fun h1 _ => ?_⟩
        · exact absurd h (not_le_of_lt (lt_of_le_of_lt (le_trans hgM hga) hab))
        · exact absurd h1 (not_lt_of_le (le_trans hgM hga))

theorem mm_fm_zero (md : Nat) (my : Cell) (s : Board) (d : Nat) (a b : V) :
    mmAux md my 0 s d a b = fmAux md my 0 s d := rfl

theorem mmAux_succ (md : Nat) (my : Cell) (n : Nat) (s : Board) (d : Nat) (a b : V) :
    mmAux md my (n + 1) s d a b =
      (if game_value s my ≠ 0 then (vq ((game_value s my : ℚ)), some s)
       else if md ≤ d then (vq (heuristic_game_value s my), some s)
       else if d % 2 = 0 then
         (if succ s my = [] then (vq (heuristic_game_value s my), some s)
          else maxLoop (fun c a2 => (mmAux md my n c (d + 1) a2 b).1) b (succ s my) a ⊥ none)
       else
         (if succ s (oppOf my) = [] then (vq (heuristic_game_value s my), some s)
          else minLoop (fun c b2 => (mmAux md my n c (d + 1) a b2).1) a
            (succ s (oppOf my)) b ⊤ none)) := rfl

theorem fmAux_succ (md : Nat) (my : Cell) (n : Nat) (s : Board) (d : Nat) :
    fmAux md my (n + 1) s d =
      (if game_value s my ≠ 0 then (vq ((game_value s my : ℚ)), some s)
       else if md ≤ d then (vq (heuristic_game_value s my), some s)
       else if d % 2 = 0 then
         (if succ s my = [] then (vq (heuristic_game_value s my), some s)
          else fullMax (fun c => (fmAux md my n c (d + 1)).1) (succ s my) ⊥ none)
       else
         (if succ s (oppOf my) = [] then (vq (heuristic_game_value s my), some s)
          else fullMin (fun c => (fmAux md my n c (d + 1)).1) (succ s (oppOf my)) ⊤ none)) := rfl

theorem maxLoop_isQ (f : Board → V → V) (b : V)
    (hf : ∀ c a2, ∃ q, f c a2 = vq q) :
    ∀ (l : List Board) (a best : V) (bs : Option Board),
      ((∃ q, best = vq q) ∨ (best = ⊥ ∧ l ≠ [])) →
      ∃ q, (maxLoop f b l a best bs).1 = vq q := by
  intro l
  induction l with
  | nil =>
    intro a best bs h
    rcases h with ⟨q, hq⟩ | ⟨_, hne⟩
    · exact ⟨q, hq⟩
    · exact absurd rfl hne
  | cons c l ih =>
    intro a best bs h
    obtain ⟨qv, hqv⟩ := hf c a
    simp only [maxLoop]
    obtain ⟨qb, hqb⟩ : ∃ qb, (if best < f c a then f c a else best) = vq qb := by
      by_cases hlt : best < f c a
      · exact ⟨qv, by rw [if_pos hlt, hqv]⟩
      · rcases h with ⟨q, hq⟩ | ⟨hbot, _⟩
        · exact ⟨q, by rw [if_neg hlt, hq]⟩
        · exact absurd (by rw [hbot, hqv]; exact bot_lt_vq qv) hlt
    rw [hqb]
    by_cases hco : b ≤ max a (vq qb)
    · rw [if_pos hco]
      exact ⟨qb, rfl⟩
    · rw [if_neg hco]
      exact ih _ _ _ (Or.inl ⟨qb, rfl⟩)

theorem minLoop_isQ (f : Board → V → V) (a : V)
    (hf : ∀ c b2, ∃ q, f c b2 = vq q) :
    ∀ (l : List Board) (b best : V) (bs : Option Board),
      ((∃ q, best = vq q) ∨ (best = ⊤ ∧ l ≠ [])) →
      ∃ q, (minLoop f a l b best bs).1 = vq q := by
  intro l
  induction l with
  | nil =>
    intro b best bs h
    rcases h with ⟨q, hq⟩ | ⟨_, hne⟩
    · exact ⟨q, hq⟩
    · exact absurd rfl hne
  | cons c l ih =>
    intro b best bs h
    obtain ⟨qv, hqv⟩ := hf c b
    simp only [minLoop]
    obtain ⟨qb, hqb⟩ : ∃ qb, (if f c b < best then f c b else best) = vq qb := by
      by_cases hlt : f c b < best
      · exact ⟨qv, by rw [if_pos hlt, hqv]⟩
      · rcases h with ⟨q, hq⟩ | ⟨htop, _⟩
        · exact ⟨q, by rw [if_neg hlt, hq]⟩
        · exact absurd (by rw [htop, hqv]; exact vq_lt_top qv) hlt
    rw [hqb]
    by_cases hco : min b (vq qb) ≤ a
    · rw [if_pos hco]
      exact ⟨qb, rfl⟩
    · rw [if_neg hco]
      exact ih _ _ _ (Or.inl ⟨qb, rfl⟩)

theorem fullMax_isQ (g : Board → V) (hg : ∀ c, ∃ q, g c = vq q) :
    ∀ (l : List Board) (best : V) (bs : Option Board),
      ((∃ q, best = vq q) ∨ (best = ⊥ ∧ l ≠ [])) →
      ∃ q, (fullMax g l best bs).1 = vq q := by
  intro l
  induction l with
  | nil =>
    intro best bs h
    rcases h with ⟨q, hq⟩ | ⟨_, hne⟩
    · exact ⟨q, hq⟩
    · exact absurd rfl hne
  | cons c l ih =>
    intro best bs h
    obtain ⟨qv, hqv⟩ := hg c
    simp only [fullMax]
    by_cases hlt : best < g c
    · rw [if_pos hlt]
      exact ih _ _ (Or.inl ⟨qv, hqv⟩)
    · rw [if_neg hlt]
      rcases h with ⟨q, hq⟩ | ⟨hbot, _⟩
      · exact ih _ _ (Or.inl ⟨q, hq⟩)
      · exact absurd (by rw [hbot, hqv]; exact bot_lt_vq qv) hlt

theorem fullMin_isQ (g : Board → V) (hg : ∀ c, ∃ q, g c = vq q) :
    ∀ (l : List Board) (best : V) (bs : Option Board),
      ((∃ q, best = vq q) ∨ (best = ⊤ ∧ l ≠ [])) →
      ∃ q, (fullMin g l best bs).1 = vq q := by
  intro l
  induction l with
  | nil =>
    intro best bs h
    rcases h with ⟨q, hq⟩ | ⟨_, hne⟩
    · exact ⟨q, hq⟩
    · exact absurd rfl hne
  | cons c l ih =>
    intro best bs h
    obtain ⟨qv, hqv⟩ := hg c
    simp only [fullMin]
    by_cases hlt : g c < best
    · rw [if_pos hlt]
      exact ih _ _ (Or.inl ⟨qv, hqv⟩)
    · rw [if_neg hlt]
      rcases h with ⟨q, hq⟩ | ⟨htop, _⟩
      · exact ih _ _ (Or.inl ⟨q, hq⟩)
      · exact absurd (by rw [htop, hqv]; exact vq_lt_top qv) hlt

theorem fmAux_isQ (md : Nat) (my : Cell) :
    ∀ (fuel : Nat) (s : Board) (d : Nat), ∃ q, (fmAux md my fuel s d).1 = vq q := by
  intro fuel
  induction fuel with
  | zero =>
    intro s d
    simp only [fmAux]
    split_ifs <;> exact ⟨_, rfl⟩
  | succ n ih =>
    intro s d
    rw [fmAux_succ]
    by_cases h1 : game_value s my ≠ 0
    · rw [if_pos h1]; exact ⟨_, rfl⟩
    rw [if_neg h1]
    by_cases h2 : md ≤ d
    · rw [if_pos h2]; exact ⟨_, rfl⟩
    rw [if_neg h2]
    by_cases h3 : d % 2 = 0
    · rw [if_pos h3]
      by_cases h4 : succ s my = []
      · rw [if_pos h4]; exact ⟨_, rfl⟩
      · rw [if_neg h4]
        exact fullMax_isQ _ (fun c => ih c (d + 1)) (succ s my) ⊥ none (Or.inr ⟨rfl, h4⟩)
    · rw [if_neg h3]
      by_cases h5 : succ s (oppOf my) = []
      · rw [if_pos h5]; exact ⟨_, rfl⟩
      · rw [if_neg h5]
        exact fullMin_isQ _ (fun c => ih c (d + 1)) (succ s (oppOf my)) ⊤ none
          (Or.inr ⟨rfl, h5⟩)

theorem mmAux_failsoft (md : Nat) (my : Cell) :
    ∀ (fuel : Nat) (s : Board) (d : Nat) (a b : V), a < b →
      fsRel ((mmAux md my fuel s d a b).1) ((fmAux md my fuel s d).1) a b := by
  intro fuel
  induction fuel with
  | zero =>
    intro s d a b _
    rw [mm_fm_zero]
    exact fsRel_refl _ a b
  | succ n ih =>
    intro s d a b hab
    rw [mmAux_succ, fmAux_succ]
    by_cases h1 : game_value s my ≠ 0
    · rw [if_pos h1, if_pos h1]; exact fsRel_refl _ a b
    rw [if_neg h1, if_neg h1]
    by_cases h2 : md ≤ d
    · rw [if_pos h2, if_pos h2]; exact fsRel_refl _ a b
    rw [if_neg h2, if_neg h2]
    by_cases h3 : d % 2 = 0
    · rw [if_pos h3, if_pos h3]
      by_cases h4 : succ s my = []
      · rw [if_pos h4, if_pos h4]; exact fsRel_refl _ a b
      · rw [if_neg h4, if_neg h4, fullMax_fst]
        exact maxLoop_failsoft _ _ b (succ s my) a ⊥ none bot_le hab
          (fun c _ a2 ha2 => ih c (d + 1) a2 b ha2)
    · rw [if_neg h3, if_neg h3]
      by_cases h5 : succ s (oppOf my) = []
      · rw [if_pos h5, if_pos h5]; exact fsRel_refl _ a b
      · rw [if_neg h5, if_neg h5, fullMin_fst]
        exact minLoop_failsoft _ _ a (succ s (oppOf my)) b ⊤ none le_top hab
          (fun c _ b2 hb2 => ih c (d + 1) a b2 hb2)

theorem maxLoop_full_eq (f : Board → V → V) (g : Board → V) :
    ∀ (l : List Board) (best : V) (bs : Option Board),
      (best = ⊥ ∨ ∃ q, best = vq q) →
      (∀ c ∈ l, ∃ q, g c = vq q) →
      (∀ c ∈ l, ∀ a2 : V, a2 < ⊤ → fsRel (f c a2) (g c) a2 ⊤) →
      maxLoop f ⊤ l best best bs = fullMax g l best bs := by
  intro l
  induction l with
  | nil => intro best bs _ _ _; rfl
  | cons c l ih =>
    intro best bs hbest hg hf
    obtain ⟨qc, hqc⟩ := hg c (List.mem_cons_self c l)
    have hg' := fun c2 hc2 => hg c2 (List.mem_cons_of_mem c hc2)
    have hf' := fun c2 hc2 => hf c2 (List.mem_cons_of_mem c hc2)
    have hbestlt : best < ⊤ := by
      rcases hbest with rfl | ⟨q, rfl⟩
      · exact bot_lt_top
      · exact vq_lt_top q
    have hfc := hf c (List.mem_cons_self c l) best hbestlt
    simp only [maxLoop, fullMax]
    rcases le_or_lt (g c) best with hle | hlt
    · obtain ⟨hva, _⟩ := hfc.1 hle
      have hnlt1 : ¬(best < f c best) := not_lt_of_le hva
      have hnlt2 : ¬(best < g c) := not_lt_of_le hle
      have hite1 : (if best < f c best then f c best else best) = best := if_neg hnlt1
      have hite2 : (if best < f c best then some c else bs) = bs := if_neg hnlt1
      rw [hite1, hite2, max_self, if_neg (not_le_of_lt hbestlt), if_neg hnlt2]
      exact ih best bs hbest hg' hf'
    · have hgtop : g c < ⊤ := by rw [hqc]; exact vq_lt_top qc
      have hveq : f c best = g c := hfc.2.2 hlt hgtop
      have hite1 : (if best < f c best then f c best else best) = g c := by
        rw [hveq]
        exact if_pos hlt
      have hite2 : (if best < f c best then some c else bs) = some c := by
        rw [hveq]
        exact if_pos hlt
      rw [hite1, hite2, max_eq_right (le_of_lt hlt), if_neg (not_le_of_lt hgtop),
        if_pos hlt]
      exact ih (g c) (some c) (Or.inr ⟨qc, hqc⟩) hg' hf'

theorem mmAux_full_even (md : Nat) (my : Cell) :
    ∀ (fuel : Nat) (s : Board) (d : Nat), d % 2 = 0 →
      mmAux md my fuel s d ⊥ ⊤ = fmAux md my fuel s d := by
  intro fuel
  cases fuel with
  | zero => intro s d _; exact mm_fm_zero md my s d ⊥ ⊤
  | succ n =>
    intro s d hd
    rw [mmAux_succ, fmAux_succ]
    by_cases h1 : game_value s my ≠ 0
    · rw [if_pos h1, if_pos h1]
    rw [if_neg h1, if_neg h1]
    by_cases h2 : md ≤ d
    · rw [if_pos h2, if_pos h2]
    rw [if_neg h2, if_neg h2, if_pos hd, if_pos hd]
    by_cases h4 : succ s my = []
    · rw [if_pos h4, if_pos h4]
    · rw [if_neg h4, if_neg h4]
      exact maxLoop_full_eq _ _ (succ s my) ⊥ none (Or.inl rfl)
        (fun c _ => fmAux_isQ md my n c (d + 1))
        (fun c _ a2 ha2 => mmAux_failsoft md my n c (d + 1) a2 ⊤ ha2)

/-- C1: alpha-beta pruning never changes the result of the root search: for
every board, self piece and depth limit, `minimax` called with the full window
(alpha = −∞, beta = +∞) returns exactly the same (value, chosen root child)
pair as the exhaustive depth-limited minimax with the identical
first-strict-improvement tie-break. -/
theorem alphabeta_same_choice (md : Nat) (my : Cell) (s : Board) :
    minimax md my s 0 ⊥ ⊤ = minimaxFull md my s 0 :=
  mmAux_full_even md my (md - 0) s 0 rfl

theorem getD_mem_of_lt {l : List Nat} : ∀ {i : Nat}, i < l.length → l.getD i 0 ∈ l := by
  induction l with
  | nil => intro i h; simp at h
  | cons a t ih =>
    intro i h
    cases i with
    | zero => simp
    | succ n =>
      simp only [List.getD_cons_succ]
      exact List.mem_cons_of_mem a (ih (by simpa using h))

theorem pairwise_mem_rel {α : Type _} {R : α → α → Prop} :
    ∀ {l : List α}, List.Pairwise R l → ∀ {x y : α}, x ∈ l → y ∈ l → x ≠ y →
      R x y ∨ R y x := by
  intro l hp
  induction hp with
  | nil => intro x y hx _ _; simp at hx
  | cons hhead _ ih =>
    intro x y hx hy hne
    rcases List.mem_cons.mp hx with rfl | hx2
    · rcases List.mem_cons.mp hy with rfl | hy2
      · exact absurd rfl hne
      · exact Or.inl (hhead y hy2)
    · rcases List.mem_cons.mp hy with rfl | hy2
      · exact Or.inr (hhead x hx2)
      · exact ih hx2 hy2 hne

theorem writeCellH_rows_ne (h : Heap) (b : List Nat) (i j : Nat) (v : Cell) {r : Nat}
    (hr : r ≠ b.getD i 0) :
    (writeCellH h b i j v).rows r = h.rows r := by
  simp only [writeCellH]
  exact Function.update_noteq hr _ _

theorem writeCellH_next (h : Heap) (b : List Nat) (i j : Nat) (v : Cell) :
    (writeCellH h b i j v).next = h.next := rfl

theorem deepcopyFold_spec :
    ∀ (b : List Nat) (h : Heap) (refs : List Nat),
      ∃ h2 nb,
        b.foldl (fun acc r =>
          let al := allocRow acc.1 (acc.1.rows r)
          (al.1, acc.2 ++ [al.2])) (h, refs) = (h2, nb) ∧
        h2.next = h.next + b.length ∧
        nb.length = refs.length + b.length ∧
        (∀ r, r < h.next → h2.rows r = h.rows r) ∧
        (∀ x ∈ nb, x ∈ refs ∨ (h.next ≤ x ∧ x < h2.next)) := by
  intro b
  induction b with
  | nil =>
    intro h refs
    exact ⟨h, refs, rfl, by simp, by simp, fun r _ => rfl, fun x hx => Or.inl hx⟩
  | cons r0 b ih =>
    intro h refs
    obtain ⟨h2, nb, heq, hnext, hlen, hrows, hmem⟩ :=
      ih { rows := Function.update h.rows h.next (h.rows r0), next := h.next + 1 }
        (refs ++ [h.next])
    have hnext' : h2.next = h.next + 1 + b.length := hnext
    have hlen' : nb.length = refs.length + 1 + b.length := by
      rw [hlen]
      simp [List.length_append]
    refine ⟨h2, nb, ?_, ?_, ?_, ?_, ?_⟩
    · simpa only [List.foldl_cons] using heq
    · rw [hnext']
      simp only [List.length_cons]
      omega
    · rw [hlen']
      simp only [List.length_cons]
      omega
    · intro r hr
      rw [hrows r (show r < h.next + 1 by omega)]
      exact Function.update_noteq (by omega) _ _
    · intro x hx
      rcases hmem x hx with hin | ⟨hge, hlt⟩
      · rcases List.mem_append.mp hin with hin2 | hin2
        · exact Or.inl hin2
        · have hx0 : x = h.next := by simpa using hin2
          refine Or.inr ⟨le_of_eq hx0.symm, ?_⟩
          rw [hx0, hnext']
          omega
      · have hge' : h.next + 1 ≤ x := hge
        exact Or.inr ⟨by omega, hlt⟩

theorem applyWrites_spec (nb : List Nat) :
    ∀ (ws : List (Nat × Nat × Cell)) (h : Heap),
      (∀ w ∈ ws, w.1 < nb.length) →
      (ws.foldl (fun hh w => writeCellH hh nb w.1 w.2.1 w.2.2) h).next = h.next ∧
      (∀ r, r ∉ nb →
        (ws.foldl (fun hh w => writeCellH hh nb w.1 w.2.1 w.2.2) h).rows r = h.rows r) := by
  intro ws
  induction ws with
  | nil => intro h _; exact ⟨rfl, fun _ _ => rfl⟩
  | cons w ws ih =>
    intro h hws
    have hw1 := hws w (List.mem_cons_self w ws)
    have hws' := fun w2 hw2 => hws w2 (List.mem_cons_of_mem w hw2)
    obtain ⟨ihn, ihr⟩ := ih (writeCellH h nb w.1 w.2.1 w.2.2) hws'
    refine ⟨by rw [List.foldl_cons, ihn, writeCellH_next], ?_⟩
    intro r hr
    rw [List.foldl_cons, ihr r hr]
    exact writeCellH_rows_ne h nb w.1 w.2.1 w.2.2
      (fun he => hr (he ▸ getD_mem_of_lt hw1))

theorem mkSuccH_spec (h : Heap) (b : List Nat) (ws : List (Nat × Nat × Cell))
    (hws : ∀ w ∈ ws, w.1 < b.length) :
    (mkSuccH h b ws).1.next = h.next + b.length ∧
    (mkSuccH h b ws).2.length = b.length ∧
    (∀ r, r < h.next → (mkSuccH h b ws).1.rows r = h.rows r) ∧
    (∀ x ∈ (mkSuccH h b ws).2, h.next ≤ x ∧ x < h.next + b.length) := by
  obtain ⟨h2, nb, heq, hnext, hlen, hrows, hmem⟩ := deepcopyFold_spec b h []
  have hdc : deepcopy h b = (h2, nb) := heq
  have hnb_len : nb.length = b.length := by simpa using hlen
  have hws2 : ∀ w ∈ ws, w.1 < nb.length := by
    intro w hw
    rw [hnb_len]
    exact hws w hw
  obtain ⟨han, har⟩ := applyWrites_spec nb ws h2 hws2
  have hm : mkSuccH h b ws =
      (ws.foldl (fun hh w => writeCellH hh nb w.1 w.2.1 w.2.2) h2, nb) := by
    simp only [mkSuccH, hdc]
  rw [hm]
  refine ⟨by rw [han, hnext], hnb_len, ?_, ?_⟩
  · intro r hr
    have hrnb : r ∉ nb := by
      intro hin
      rcases hmem r hin with hemp | ⟨hge, _⟩
      · simp at hemp
      · omega
    rw [har r hrnb, hrows r hr]
  · intro x hx
    rcases hmem x hx with hemp | ⟨hge, hlt⟩
    · simp at hemp
    · exact ⟨hge, by rw [← hnext]; exact hlt⟩

theorem condAlloc_fold_spec (b : List Nat) {γ : Type _}
    (f : Heap → γ → Option (List (Nat × Nat × Cell))) :
    ∀ (cands : List γ) (acc : Heap × List (List Nat)) (h0 : Heap),
      (∀ hh : Heap, ∀ x ∈ cands, ∀ ws, f hh x = some ws → ∀ w ∈ ws, w.1 < b.length) →
      h0.next ≤ acc.1.next →
      (∀ r, r < h0.next → acc.1.rows r = h0.rows r) →
      (∀ nb ∈ acc.2, (∀ x ∈ nb, h0.next ≤ x ∧ x < acc.1.next) ∧ nb.length = b.length) →
      List.Pairwise (fun n1 n2 => ∀ x ∈ n1, ∀ y ∈ n2, x < y) acc.2 →
      h0.next ≤ (cands.foldl (condAllocStep b f) acc).1.next ∧
      (∀ r, r < h0.next → (cands.foldl (condAllocStep b f) acc).1.rows r = h0.rows r) ∧
      (∀ nb ∈ (cands.foldl (condAllocStep b f) acc).2,
        (∀ x ∈ nb, h0.next ≤ x ∧ x < (cands.foldl (condAllocStep b f) acc).1.next) ∧
        nb.length = b.length) ∧
      List.Pairwise (fun n1 n2 => ∀ x ∈ n1, ∀ y ∈ n2, x < y)
        (cands.foldl (condAllocStep b f) acc).2 := by
  intro cands
  induction cands with
  | nil => intro acc h0 _ h1 h2 h3 h4; exact ⟨h1, h2, h3, h4⟩
  | cons x cands ih =>
    intro acc h0 hf h1 h2 h3 h4
    rw [List.foldl_cons]
    have hf' := fun hh y hy => hf hh y (List.mem_cons_of_mem x hy)
    rcases hstep : f acc.1 x with _ | ws
    · have hacc : condAllocStep b f acc x = acc := by
        simp [condAllocStep, hstep]
      rw [hacc]
      exact ih acc h0 hf' h1 h2 h3 h4
    · have hws : ∀ w ∈ ws, w.1 < b.length :=
        hf acc.1 x (List.mem_cons_self x cands) ws hstep
      obtain ⟨hn, hl, hr, hm⟩ := mkSuccH_spec acc.1 b ws hws
      have hstep_eq : condAllocStep b f acc x =
          ((mkSuccH acc.1 b ws).1, acc.2 ++ [(mkSuccH acc.1 b ws).2]) := by
        simp [condAllocStep, hstep]
      rw [hstep_eq]
      apply ih _ h0 hf'
      · rw [hn]
        exact le_trans h1 (Nat.le_add_right _ _)
      · intro r hrlt
        rw [hr r (lt_of_lt_of_le hrlt h1), h2 r hrlt]
      · intro nb hnb
        rcases List.mem_append.mp hnb with hold | hnew
        · obtain ⟨hbound, hlen2⟩ := h3 nb hold
          refine ⟨fun x2 hx2 => ⟨(hbound x2 hx2).1, ?_⟩, hlen2⟩
          rw [hn]
          exact lt_of_lt_of_le (hbound x2 hx2).2 (Nat.le_add_right _ _)
        · have hnb2 : nb = (mkSuccH acc.1 b ws).2 := by simpa using hnew
          subst hnb2
          refine ⟨fun x2 hx2 => ?_, hl⟩
          obtain ⟨hge, hlt⟩ := hm x2 hx2
          exact ⟨le_trans h1 hge, by rw [hn]; exact hlt⟩
      · rw [List.pairwise_append]
        refine ⟨h4, List.pairwise_singleton _ _, ?_⟩
        intro n1 hn1 n2 hn2
        have hn2' : n2 = (mkSuccH acc.1 b ws).2 := by simpa using hn2
        subst hn2'
        intro x1 hx1 y hy
        exact lt_of_lt_of_le ((h3 n1 hn1).1 x1 hx1).2 (hm y hy).1

theorem heapFrame_of_spec (h : Heap) (b : List Nat) (h2 : Heap) (out : List (List Nat))
    (hwf : ∀ r ∈ b, r < h.next) (hlen : b.length = 5)
    (hrows : ∀ r, r < h.next → h2.rows r = h.rows r)
    (hfresh : ∀ nb ∈ out, (∀ x ∈ nb, h.next ≤ x ∧ x < h2.next) ∧ nb.length = b.length)
    (hpw : List.Pairwise (fun n1 n2 => ∀ x ∈ n1, ∀ y ∈ n2, x < y) out) :
    (∀ r ∈ b, h2.rows r = h.rows r) ∧
    (∀ i j, readCellH h2 b i j = readCellH h b i j) ∧
    (∀ nb ∈ out, ∀ x ∈ nb, x ∉ b) ∧
    (∀ nb ∈ out, ∀ nb2 ∈ out, nb ≠ nb2 → ∀ x ∈ nb, x ∉ nb2) ∧
    (∀ nb ∈ out, ∀ i, i < nb.length → ∀ j v,
      (∀ i2 j2, readCellH (writeCellH h2 nb i j v) b i2 j2 = readCellH h2 b i2 j2) ∧
      (∀ nb2 ∈ out, nb2 ≠ nb → ∀ i2 j2,
        readCellH (writeCellH h2 nb i j v) nb2 i2 j2 = readCellH h2 nb2 i2 j2)) := by
  have hpos : 0 < h.next := by
    rcases b with _ | ⟨r0, t⟩
    · simp at hlen
    · exact Nat.lt_of_le_of_lt (Nat.zero_le r0) (hwf r0 (List.mem_cons_self r0 t))
  have hrefb : ∀ i, b.getD i 0 < h.next := by
    intro i
    by_cases hi : i < b.length
    · exact hwf _ (getD_mem_of_lt hi)
    · rw [List.getD_eq_default _ _ (le_of_not_lt hi)]
      exact hpos
  refine ⟨fun r hr => hrows r (hwf r hr), ?_, ?_, ?_, ?_⟩
  · intro i j
    unfold readCellH
    rw [hrows _ (hrefb i)]
  · intro nb hnb x hx hxb
    exact absurd (hwf x hxb) (not_lt_of_le ((hfresh nb hnb).1 x hx).1)
  · intro nb hnb nb2 hnb2 hne x hx hx2
    rcases pairwise_mem_rel hpw hnb hnb2 hne with hR | hR
    · exact lt_irrefl x (hR x hx x hx2)
    · exact lt_irrefl x (hR x hx2 x hx)
  · intro nb hnb i hi j v
    have htar : nb.getD i 0 ∈ nb := getD_mem_of_lt hi
    have htar_ge : h.next ≤ nb.getD i 0 := ((hfresh nb hnb).1 _ htar).1
    constructor
    · intro i2 j2
      have hne2 : b.getD i2 0 ≠ nb.getD i 0 :=
        Nat.ne_of_lt (lt_of_lt_of_le (hrefb i2) htar_ge)
      unfold readCellH
      rw [writeCellH_rows_ne h2 nb i j v hne2]
    · intro nb2 hnb2 hne i2 j2
      have hne2 : nb2.getD i2 0 ≠ nb.getD i 0 := by
        by_cases hi2 : i2 < nb2.length
        · have hmem2 : nb2.getD i2 0 ∈ nb2 := getD_mem_of_lt hi2
          intro he
          have hin : nb.getD i 0 ∈ nb2 := he ▸ hmem2
          rcases pairwise_mem_rel hpw hnb hnb2 (fun hq => hne hq.symm) with hR | hR
          · exact lt_irrefl _ (hR _ htar _ hin)
          · exact lt_irrefl _ (hR _ hin _ htar)
        · rw [List.getD_eq_default _ _ (le_of_not_lt hi2)]
          exact Nat.ne_of_lt (lt_of_lt_of_le hpos htar_ge)
      unfold readCellH
      rw [writeCellH_rows_ne h2 nb i j v hne2]

/-- C9: the heap-level successor generator never mutates its input board: all
of the input's row objects are unchanged, every cell read through the input
board is unchanged, every returned successor consists of freshly allocated
row objects disjoint from the input's and from every sibling successor's, and
consequently writing into one successor changes neither the input state nor
any other successor, cell for cell. -/
theorem succH_frame (h : Heap) (b : List Nat) (my : Cell)
    (hwf : ∀ r ∈ b, r < h.next) (hlen : b.length = 5) :
    (∀ r ∈ b, (succH h b my).1.rows r = h.rows r) ∧
    (∀ i j, readCellH (succH h b my).1 b i j = readCellH h b i j) ∧
    (∀ nb ∈ (succH h b my).2, ∀ x ∈ nb, x ∉ b) ∧
    (∀ nb ∈ (succH h b my).2, ∀ nb2 ∈ (succH h b my).2, nb ≠ nb2 → ∀ x ∈ nb, x ∉ nb2) ∧
    (∀ nb ∈ (succH h b my).2, ∀ i, i < nb.length → ∀ j v,
      (∀ i2 j2, readCellH (writeCellH (succH h b my).1 nb i j v) b i2 j2 =
        readCellH (succH h b my).1 b i2 j2) ∧
      (∀ nb2 ∈ (succH h b my).2, nb2 ≠ nb → ∀ i2 j2,
        readCellH (writeCellH (succH h b my).1 nb i j v) nb2 i2 j2 =
          readCellH (succH h b my).1 nb2 i2 j2)) := by
  have hspec : h.next ≤ (succH h b my).1.next ∧
      (∀ r, r < h.next → (succH h b my).1.rows r = h.rows r) ∧
      (∀ nb ∈ (succH h b my).2,
        (∀ x ∈ nb, h.next ≤ x ∧ x < (succH h b my).1.next) ∧ nb.length = b.length) ∧
      List.Pairwise (fun n1 n2 => ∀ x ∈ n1, ∀ y ∈ n2, x < y) (succH h b my).2 := by
    simp only [succH]
    split_ifs with htot
    · apply condAlloc_fold_spec b _ cells25 (h, []) h ?_ (le_refl _) (fun _ _ => rfl)
        (by simp) List.Pairwise.nil
      intro hh x hx ws hws
      by_cases hre : readCellH hh b x.1 x.2 = Cell.empty
      · rw [if_pos hre] at hws
        have hws2 : [(x.1, x.2, my)] = ws := Option.some_inj.mp hws
        intro w hw
        rw [← hws2] at hw
        have hwx : w = (x.1, x.2, my) := by simpa using hw
        rw [hwx, hlen]
        exact (mem_cells25.mp hx).1
      · rw [if_neg hre] at hws
        cases hws
    · apply condAlloc_fold_spec b _ _ (h, []) h ?_ (le_refl _) (fun _ _ => rfl)
        (by simp) List.Pairwise.nil
      intro hh x hx ws hws
      by_cases hc : 0 ≤ (x.1.1 : Int) + x.2.1 ∧ (x.1.1 : Int) + x.2.1 < 5 ∧
          0 ≤ (x.1.2 : Int) + x.2.2 ∧ (x.1.2 : Int) + x.2.2 < 5 ∧
          readCellH hh b ((x.1.1 : Int) + x.2.1).toNat ((x.1.2 : Int) + x.2.2).toNat =
            Cell.empty
      · rw [if_pos hc] at hws
        have hws2 : [(((x.1.1 : Int) + x.2.1).toNat, ((x.1.2 : Int) + x.2.2).toNat, my),
            (x.1.1, x.1.2, Cell.empty)] = ws := Option.some_inj.mp hws
        intro w hw
        rw [← hws2] at hw
        rcases List.mem_cons.mp hw with hwx | hw2
        · rw [hwx, hlen]
          have := hc.2.1
          have := hc.1
          simp only []
          omega
        · have hwx : w = (x.1.1, x.1.2, Cell.empty) := by simpa using hw2
          rw [hwx, hlen]
          obtain ⟨c0, hc0, hx2⟩ := List.mem_flatMap.mp hx
          obtain ⟨d0, _, hxd⟩ := List.mem_map.mp hx2
          have hc0c : c0 ∈ cells25 := (List.mem_filter.mp hc0).1
          have hx1 : x.1 = c0 := by rw [← hxd]
          rw [hx1]
          exact (mem_cells25.mp hc0c).1
      · rw [if_neg hc] at hws
        cases hws
  obtain ⟨_, hrows, hfresh, hpw⟩ := hspec
  exact heapFrame_of_spec h b (succH h b my).1 (succH h b my).2 hwf hlen hrows hfresh hpw

/-- Witness for `succH_frame`: the fresh empty five-row heap. -/
theorem succH_frame_witness :
    (succH heap0 hb0 Cell.black).1.rows 0 = heap0.rows 0 ∧
    readCellH (succH heap0 hb0 Cell.black).1 hb0 2 2 = readCellH heap0 hb0 2 2 :=
  ⟨(succH_frame heap0 hb0 Cell.black (by decide) (by decide)).1 0 (by decide),
   (succH_frame heap0 hb0 Cell.black (by decide) (by decide)).2.1 2 2⟩
